import Mathlib

/-!
Verification of the indexed file allocation & growth engine of
src/filesys/filehdr.cc (FileHeader::Allocate, AllocateWithIndex, Deallocate,
DeallocateWithIndex, ByteToSector, ByteToSectorWithIndex, addLength).

The engine's collaborators that are not part of src/ (the free-space bitmap
of bitmap.cc, the block store of synchdisk.cc, and the configuration
constants of filehdr.h) are modelled from the spec's §6 external-interface
contracts; everything in filehdr.cc itself is translated loop by loop.
-/

namespace Nachos

/-- divRoundUp from the Nachos utility header: `n / s` plus one when the
division has a remainder (all quantities non-negative in every use the
claims touch). -/
def divRoundUp (n s : Nat) : Nat := n / s + (if n % s > 0 then 1 else 0)

/-- Modelled from the spec: the configuration constants consumed from the
environment (filehdr.h is not part of src/): `SectorBytes` (`SectorSize`),
`Capacity` (`NumFirst`, the header's direct-slot count) and `NumSecond`
(entries per index node), all fixed at build time. -/
structure Cfg where
  sectorSize : Nat
  numFirst : Nat
  numSecond : Nat

/-- Modelled from the spec: the Free-Space Bitmap collaborator (§6), one bit
per disk sector, `true` = allocated.  `n` is the total number of sectors. -/
structure BitMap where
  n : Nat
  bits : Nat → Bool

/-- `count_clear()` of the bitmap contract: the number of clear bits. -/
def BitMap.NumClear (bm : BitMap) : Nat :=
  (List.range bm.n).countP fun i => !bm.bits i

/-- Marking one bit allocated (the `Mark` performed inside `Find`). -/
def BitMap.mark (bm : BitMap) (k : Nat) : BitMap :=
  ⟨bm.n, Function.update bm.bits k true⟩

/-- Modelled from the spec: `find() -> SectorNumber | None`.  The engine
stores the result directly into an `int` sector slot, so the exhausted case
is rendered as the `-1` sentinel the engine would receive; on success the
lowest clear bit is marked allocated and returned. -/
def BitMap.find (bm : BitMap) : Int × BitMap :=
  match (List.range bm.n).find? (fun i => !bm.bits i) with
  | some k => ((k : Int), bm.mark k)
  | none => (-1, bm)

/-- Modelled from the spec: `test(sector) -> bool`.  Out-of-range sector
numbers (never produced in any scenario the claims reach) read as clear. -/
def BitMap.Test (bm : BitMap) (which : Int) : Bool :=
  if 0 ≤ which ∧ which < (bm.n : Int) then bm.bits which.toNat else false

/-- Modelled from the spec: `clear(sector)`.  Out-of-range sector numbers
(never produced in any scenario the claims reach) leave the map unchanged. -/
def BitMap.Clear (bm : BitMap) (which : Int) : BitMap :=
  if 0 ≤ which ∧ which < (bm.n : Int) then ⟨bm.n, Function.update bm.bits which.toNat false⟩
  else bm

/-- A `SecondNode` (filehdr.h, modelled from the spec's Index Node): one
sector holding an array of sector numbers.  A fresh node's unwritten entries
are never read by the engine; they are rendered as `0`. -/
abbrev SecondNode := Nat → Int

/-- Modelled from the spec: the Block Store, restricted to the index-node
sectors the engine reads and writes through it. -/
abbrev Disk := Int → SecondNode

/-- `synchDisk->WriteSector` for an index node. -/
def writeSector (d : Disk) (s : Int) (node : SecondNode) : Disk :=
  Function.update d s node

/-- The in-memory `FileHeader`: logical size, derived sector count, layout
mode flag and the fixed-capacity slot array (direct data sectors or index
node pointers depending on `useIndex`). -/
structure FileHeader where
  numBytes : Nat
  numSectors : Nat
  useIndex : Bool
  dataSectors : Nat → Int

/-- Result of a mutating engine operation: the C++ bool return plus the
post-state of the header, the node disk and the free-space bitmap. -/
structure AResult where
  ok : Bool
  hdr : FileHeader
  disk : Disk
  bm : BitMap

/-- The sector-drawing loop `for (j = i; j < i + c; j++) f[j] = freeMap->Find()`
shared by `Allocate`, the index-node filling loops and `addLength`. -/
def allocLoop : Nat → BitMap → (Nat → Int) → Nat → ((Nat → Int) × BitMap)
  | 0, bm, f, _ => (f, bm)
  | c + 1, bm, f, i =>
      allocLoop c (bm.find).2 (Function.update f i (bm.find).1) (i + 1)

/-- The per-node entry count: a node before the last is full (`NumSecond`
entries), the last node holds the tail
(`numSectors - NumSecond * (numNode - 1)` entries). -/
def tailCnt (cfg : Cfg) (numNode numSectors i : Nat) : Nat :=
  if i < numNode - 1 then cfg.numSecond else numSectors - cfg.numSecond * (numNode - 1)

/-- The index-node building loop of `AllocateWithIndex` (filehdr.cc:64-77)
and of `addLength` (filehdr.cc:337-350): for each node position draw a
sector for the node, draw its entries (full or tail count), store the node
sector in the slot array and persist the node. -/
def nodeAllocLoop (cfg : Cfg) (numNode numSectors : Nat) :
    Nat → Nat → BitMap → (Nat → Int) → Disk → ((Nat → Int) × Disk × BitMap)
  | 0, _, bm, slots, disk => (slots, disk, bm)
  | c + 1, i, bm, slots, disk =>
      nodeAllocLoop cfg numNode numSectors c (i + 1)
        (allocLoop (tailCnt cfg numNode numSectors i) (bm.find).2 (fun _ => (0 : Int)) 0).2
        (Function.update slots i (bm.find).1)
        (writeSector disk (bm.find).1
          (allocLoop (tailCnt cfg numNode numSectors i) (bm.find).2 (fun _ => (0 : Int)) 0).1)

/-- FileHeader::AllocateWithIndex (filehdr.cc:56-79). -/
def FileHeader.AllocateWithIndex (hdr : FileHeader) (cfg : Cfg) (disk : Disk) (bm : BitMap)
    (fileSize : Nat) : AResult :=
  let hdr1 : FileHeader :=
    { hdr with useIndex := true, numBytes := fileSize,
               numSectors := divRoundUp fileSize cfg.sectorSize }
  let numNode := divRoundUp hdr1.numSectors cfg.numSecond
  if bm.NumClear < hdr1.numSectors + numNode then ⟨false, hdr1, disk, bm⟩
  else
    let r := nodeAllocLoop cfg numNode hdr1.numSectors numNode 0 bm hdr1.dataSectors disk
    ⟨true, { hdr1 with dataSectors := r.1 }, r.2.1, r.2.2⟩

/-- FileHeader::Allocate (filehdr.cc:41-54). -/
def FileHeader.Allocate (hdr : FileHeader) (cfg : Cfg) (disk : Disk) (bm : BitMap)
    (fileSize : Nat) : AResult :=
  let hdr1 : FileHeader :=
    { hdr with numBytes := fileSize, numSectors := divRoundUp fileSize cfg.sectorSize }
  if hdr1.numSectors > cfg.numFirst then hdr1.AllocateWithIndex cfg disk bm fileSize
  else
    let hdr2 : FileHeader := { hdr1 with useIndex := false }
    if bm.NumClear < hdr2.numSectors then ⟨false, hdr2, disk, bm⟩
    else
      let r := allocLoop hdr2.numSectors bm hdr2.dataSectors 0
      ⟨true, { hdr2 with dataSectors := r.1 }, disk, r.2⟩

/-- The clearing loop `for (j = i; j < i + c; j++) { ASSERT(Test(f[j])); Clear(f[j]); }`
of Deallocate / DeallocateWithIndex; `none` models the fatal ASSERT. -/
def clearLoop : Nat → BitMap → (Nat → Int) → Nat → Option BitMap
  | 0, bm, _, _ => some bm
  | c + 1, bm, f, i =>
      if bm.Test (f i) = true then clearLoop c (bm.Clear (f i)) f (i + 1) else none

/-- The node-clearing loop of FileHeader::DeallocateWithIndex
(filehdr.cc:105-124): per node read the node, assert-and-clear every valid
entry, then assert-and-clear the node's own sector. -/
def nodeClearLoop (cfg : Cfg) (numNode numSectors : Nat) (disk : Disk) (slots : Nat → Int) :
    Nat → Nat → BitMap → Option BitMap
  | 0, _, bm => some bm
  | c + 1, i, bm =>
      match clearLoop (tailCnt cfg numNode numSectors i) bm (disk (slots i)) 0 with
      | none => none
      | some bm1 =>
          if bm1.Test (slots i) = true then
            nodeClearLoop cfg numNode numSectors disk slots c (i + 1) (bm1.Clear (slots i))
          else none

/-- FileHeader::DeallocateWithIndex (filehdr.cc:102-125). -/
def FileHeader.DeallocateWithIndex (hdr : FileHeader) (cfg : Cfg) (disk : Disk)
    (bm : BitMap) : Option BitMap :=
  let numNode := divRoundUp hdr.numSectors cfg.numSecond
  nodeClearLoop cfg numNode hdr.numSectors disk hdr.dataSectors numNode 0 bm

/-- FileHeader::Deallocate (filehdr.cc:88-100); the source mutates only the
free map, so the model returns the bitmap (`none` = the fatal ASSERT). -/
def FileHeader.Deallocate (hdr : FileHeader) (cfg : Cfg) (disk : Disk)
    (bm : BitMap) : Option BitMap :=
  if hdr.useIndex then hdr.DeallocateWithIndex cfg disk bm
  else clearLoop hdr.numSectors bm hdr.dataSectors 0

/-- FileHeader::ByteToSectorWithIndex (filehdr.cc:168-177). -/
def FileHeader.ByteToSectorWithIndex (hdr : FileHeader) (cfg : Cfg) (disk : Disk)
    (offset : Nat) : Int :=
  let whichSector := offset / cfg.sectorSize
  let whichNode := whichSector / cfg.numSecond
  disk (hdr.dataSectors whichNode) (whichSector - whichNode * cfg.numSecond)

/-- FileHeader::ByteToSector (filehdr.cc:161-166). -/
def FileHeader.ByteToSector (hdr : FileHeader) (cfg : Cfg) (disk : Disk)
    (offset : Nat) : Int :=
  if hdr.useIndex then hdr.ByteToSectorWithIndex cfg disk offset
  else hdr.dataSectors (offset / cfg.sectorSize)

/-- The migration copy loop `for (i = 0; i < c; i++) dst[i] = src[i]`
(filehdr.cc:314-315). -/
def copyN (dst src : Nat → Int) : Nat → (Nat → Int)
  | 0 => dst
  | c + 1 => Function.update (copyN dst src c) c (src c)

/-- The direct-to-indexed migration block of addLength (filehdr.cc:309-320):
draw a sector for a fresh index node, copy the `oldNumSectors` direct slots
into it, point slot 0 at the node, persist it and set the mode flag. -/
def FileHeader.migrateStep (hdr : FileHeader) (disk : Disk) (bm : BitMap)
    (oldNumSectors : Nat) : FileHeader × Disk × BitMap :=
  let p := bm.find
  let snode := copyN (fun _ => (0 : Int)) hdr.dataSectors oldNumSectors
  ({ hdr with dataSectors := Function.update hdr.dataSectors 0 p.1, useIndex := true },
   writeSector disk p.1 snode, p.2)

/-- FileHeader::addLength (filehdr.cc:285-355).  The header write-backs to
its own sector and the bitmap write-back to its backing file are the
persistence of the returned state; the `numSectors - oldNumSectors == 0`
test on C++ ints is equality of the two counts. -/
def FileHeader.addLength (hdr : FileHeader) (cfg : Cfg) (disk : Disk) (bm : BitMap)
    (addBytes : Nat) : AResult :=
  let oldNumSectors := hdr.numSectors
  let hdr1 : FileHeader :=
    { hdr with numBytes := hdr.numBytes + addBytes,
               numSectors := divRoundUp (hdr.numBytes + addBytes) cfg.sectorSize }
  if hdr1.numSectors = oldNumSectors then ⟨true, hdr1, disk, bm⟩
  else
    if hdr1.numSectors ≤ cfg.numFirst then
      let r := allocLoop (hdr1.numSectors - oldNumSectors) bm hdr1.dataSectors oldNumSectors
      ⟨true, { hdr1 with dataSectors := r.1 }, disk, r.2⟩
    else
      let st :=
        if cfg.numFirst < hdr1.numSectors ∧ hdr1.useIndex = false then
          hdr1.migrateStep disk bm oldNumSectors
        else (hdr1, disk, bm)
      let hdr2 := st.1
      let oldNumNode := divRoundUp oldNumSectors cfg.numSecond
      let numNode := divRoundUp hdr2.numSectors cfg.numSecond
      let td :=
        if oldNumSectors % cfg.numSecond ≠ 0 then
          let snode := st.2.1 (hdr2.dataSectors (oldNumNode - 1))
          let start := oldNumSectors - (oldNumNode - 1) * cfg.numSecond
          let stop := min cfg.numSecond (hdr2.numSectors - (oldNumNode - 1) * cfg.numSecond)
          let q := allocLoop (stop - start) st.2.2 snode start
          (writeSector st.2.1 (hdr2.dataSectors (oldNumNode - 1)) q.1, q.2)
        else (st.2.1, st.2.2)
      let r := nodeAllocLoop cfg numNode hdr2.numSectors (numNode - oldNumNode) oldNumNode
        td.2 hdr2.dataSectors td.1
      ⟨true, { hdr2 with dataSectors := r.1 }, r.2.1, r.2.2⟩

/-! ### Arithmetic facts about divRoundUp -/

theorem divRoundUp_zero_right (n : Nat) : divRoundUp n 0 = if 0 < n then 1 else 0 := by
  simp [divRoundUp, Nat.pos_iff_ne_zero]

theorem divRoundUp_of_mod_eq_zero {n s : Nat} (h : n % s = 0) : divRoundUp n s = n / s := by
  simp [divRoundUp, h]

theorem divRoundUp_of_mod_pos {n s : Nat} (h : 0 < n % s) : divRoundUp n s = n / s + 1 := by
  rw [divRoundUp, if_pos h]

theorem divRoundUp_eq_div (n s : Nat) (hs : 0 < s) : divRoundUp n s = (n + s - 1) / s := by
  have e := Nat.div_add_mod n s
  rcases Nat.eq_zero_or_pos (n % s) with h | h
  · have e2 : n + s - 1 = s * (n / s) + (s - 1) := by omega
    rw [divRoundUp_of_mod_eq_zero h, e2, Nat.mul_add_div hs,
      Nat.div_eq_of_lt (show s - 1 < s by omega)]
    omega
  · have hlt : n % s < s := Nat.mod_lt _ hs
    have hm : s * (n / s + 1) = s * (n / s) + s := by ring
    have e2 : n + s - 1 = s * (n / s + 1) + (n % s - 1) := by omega
    rw [divRoundUp_of_mod_pos h, e2, Nat.mul_add_div hs,
      Nat.div_eq_of_lt (show n % s - 1 < s by omega)]


theorem le_mul_divRoundUp (n s : Nat) (hs : 0 < s) : n ≤ s * divRoundUp n s := by
  have e := Nat.div_add_mod n s
  rcases Nat.eq_zero_or_pos (n % s) with h | h
  · rw [divRoundUp_of_mod_eq_zero h]
    omega
  · rw [divRoundUp_of_mod_pos h]
    have hm : s * (n / s + 1) = s * (n / s) + s := by ring
    have hlt : n % s < s := Nat.mod_lt _ hs
    omega

theorem div_lt_divRoundUp (o n s : Nat) (hs : 0 < s) (h : o < n) :
    o / s < divRoundUp n s := by
  rw [Nat.div_lt_iff_lt_mul hs, Nat.mul_comm]
  exact lt_of_lt_of_le h (le_mul_divRoundUp n s hs)

theorem mul_pred_divRoundUp_lt (n s : Nat) (hn : 0 < n) :
    s * (divRoundUp n s - 1) < n := by
  rcases Nat.eq_zero_or_pos s with rfl | hs
  · simpa using hn
  have e := Nat.div_add_mod n s
  rcases Nat.eq_zero_or_pos (n % s) with h | h
  · rw [divRoundUp_of_mod_eq_zero h]
    have hq : n / s ≠ 0 := by
      intro h00
      rw [h00, Nat.mul_zero] at e
      omega
    obtain ⟨q, hq'⟩ : ∃ q, n / s = q + 1 := Nat.exists_eq_succ_of_ne_zero hq
    rw [hq', Nat.add_sub_cancel]
    have hm : s * (q + 1) = s * q + s := by ring
    rw [hq'] at e
    omega
  · rw [divRoundUp_of_mod_pos h, Nat.add_sub_cancel]
    omega

theorem divRoundUp_mono (m n s : Nat) (h : m ≤ n) : divRoundUp m s ≤ divRoundUp n s := by
  rcases Nat.eq_zero_or_pos s with rfl | hs
  · rw [divRoundUp_zero_right, divRoundUp_zero_right]
    split <;> split <;> omega
  · rw [divRoundUp_eq_div _ _ hs, divRoundUp_eq_div _ _ hs]
    exact Nat.div_le_div_right (by omega)

theorem divRoundUp_pos (n s : Nat) (hn : 0 < n) : 0 < divRoundUp n s := by
  rcases Nat.eq_zero_or_pos s with rfl | hs
  · rw [divRoundUp_zero_right, if_pos hn]
    omega
  · have h1 := le_mul_divRoundUp n s hs
    rcases Nat.eq_zero_or_pos (divRoundUp n s) with h0 | h0
    · rw [h0, Nat.mul_zero] at h1
      omega
    · exact h0

theorem divRoundUp_eq_one (n s : Nat) (h1 : 0 < n) (h2 : n ≤ s) : divRoundUp n s = 1 := by
  have hs : 0 < s := by omega
  rcases Nat.lt_or_ge n s with h | h
  · rw [divRoundUp, Nat.div_eq_of_lt h, Nat.mod_eq_of_lt h, if_pos h1]
  · have hns : n = s := by omega
    subst hns
    rw [divRoundUp, Nat.div_self hs, Nat.mod_self]
    simp

theorem divRoundUp_le (n k s : Nat) (hs : 0 < s) (h : n ≤ k * s) : divRoundUp n s ≤ k := by
  rw [divRoundUp_eq_div _ _ hs]
  rw [Nat.div_le_iff_le_mul_add_pred hs]
  have hm : s * k = k * s := by ring
  omega

/-! ### Counting lemmas for bit updates -/

theorem countP_ext (p q : Nat → Bool) :
    ∀ l : List Nat, (∀ x ∈ l, p x = q x) → l.countP p = l.countP q := by
  intro l
  induction l with
  | nil => intro _; rfl
  | cons a t ih =>
      intro h
      rw [List.countP_cons, List.countP_cons, ih (fun x hx => h x (List.mem_cons_of_mem _ hx)),
        h a (List.mem_cons_self a t)]

theorem countP_update_true (f : Nat → Bool) (k : Nat) (hf : f k = false) :
    ∀ l : List Nat, l.Nodup → k ∈ l →
      l.countP (fun i => !(Function.update f k true i)) = l.countP (fun i => !f i) - 1 := by
  intro l
  induction l with
  | nil => intro _ h; cases h
  | cons a t ih =>
      intro hnd hmem
      obtain ⟨hat, hndt⟩ := List.nodup_cons.mp hnd
      rw [List.countP_cons, List.countP_cons]
      rcases List.mem_cons.mp hmem with rfl | hkt
      · have h3 : t.countP (fun i => !(Function.update f k true i)) =
            t.countP (fun i => !f i) := by
          apply countP_ext
          intro x hx
          have hxk : x ≠ k := fun h => hat (h ▸ hx)
          simp [Function.update_noteq hxk]
        rw [h3]
        simp [Function.update_same, hf]
      · have hak : a ≠ k := fun h => hat (h ▸ hkt)
        have hpos : 0 < t.countP (fun i => !f i) :=
          List.countP_pos_iff.mpr ⟨k, hkt, by simp [hf]⟩
        rw [ih hndt hkt]
        simp only [Function.update_noteq hak]
        split <;> omega

theorem countP_update_false (f : Nat → Bool) (k : Nat) (hf : f k = true) :
    ∀ l : List Nat, l.Nodup → k ∈ l →
      l.countP (fun i => !(Function.update f k false i)) = l.countP (fun i => !f i) + 1 := by
  intro l
  induction l with
  | nil => intro _ h; cases h
  | cons a t ih =>
      intro hnd hmem
      obtain ⟨hat, hndt⟩ := List.nodup_cons.mp hnd
      rw [List.countP_cons, List.countP_cons]
      rcases List.mem_cons.mp hmem with rfl | hkt
      · have h3 : t.countP (fun i => !(Function.update f k false i)) =
            t.countP (fun i => !f i) := by
          apply countP_ext
          intro x hx
          have hxk : x ≠ k := fun h => hat (h ▸ hx)
          simp [Function.update_noteq hxk]
        rw [h3]
        simp [Function.update_same, hf]
      · have hak : a ≠ k := fun h => hat (h ▸ hkt)
        rw [ih hndt hkt]
        simp only [Function.update_noteq hak]
        split <;> omega

/-! ### BitMap lemmas -/

/-- Bits only get set, never cleared, across an allocation phase. -/
def BitMap.le (a b : BitMap) : Prop :=
  a.n = b.n ∧ ∀ k : Nat, a.bits k = true → b.bits k = true

theorem BitMap.le_refl (a : BitMap) : a.le a := ⟨rfl, fun _ h => h⟩

theorem BitMap.le_trans {a b c : BitMap} (h1 : a.le b) (h2 : b.le c) : a.le c :=
  ⟨h1.1.trans h2.1, fun k hk => h2.2 k (h1.2 k hk)⟩

theorem BitMap.Test_true_iff (bm : BitMap) (s : Int) :
    bm.Test s = true ↔ ∃ k : Nat, s = (k : Int) ∧ k < bm.n ∧ bm.bits k = true := by
  unfold BitMap.Test
  split
  · next h =>
      constructor
      · intro hb
        exact ⟨s.toNat, (Int.toNat_of_nonneg h.1).symm, by omega, hb⟩
      · rintro ⟨k, rfl, _, hb⟩
        simpa using hb
  · next h =>
      constructor
      · intro hb; cases hb
      · rintro ⟨k, rfl, hk, _⟩
        exact absurd ⟨by omega, by omega⟩ h

theorem BitMap.Test_false_of_bits {bm : BitMap} {k : Nat} (h : bm.bits k = false) :
    bm.Test (k : Int) = false := by
  unfold BitMap.Test
  split
  · simpa using h
  · rfl

theorem BitMap.Test_mono {a b : BitMap} (hle : a.le b) {s : Int} (h : a.Test s = true) :
    b.Test s = true := by
  rw [BitMap.Test_true_iff] at h ⊢
  obtain ⟨k, rfl, hk, hb⟩ := h
  exact ⟨k, rfl, hle.1 ▸ hk, hle.2 k hb⟩

theorem BitMap.mark_le (bm : BitMap) (k : Nat) : bm.le (bm.mark k) := by
  refine ⟨rfl, fun j hj => ?_⟩
  unfold BitMap.mark
  rcases eq_or_ne j k with rfl | hne
  · simp [Function.update_same]
  · simpa [Function.update_noteq hne] using hj

theorem BitMap.mark_NumClear (bm : BitMap) (k : Nat) (hk : k < bm.n)
    (hb : bm.bits k = false) : (bm.mark k).NumClear = bm.NumClear - 1 := by
  unfold BitMap.NumClear BitMap.mark
  exact countP_update_true bm.bits k hb (List.range bm.n) (List.nodup_range _)
    (List.mem_range.mpr hk)

theorem BitMap.find_cases (bm : BitMap) :
    (bm.NumClear = 0 ∧ bm.find = (-1, bm)) ∨
    (∃ k : Nat, k < bm.n ∧ bm.bits k = false ∧ bm.find = ((k : Int), bm.mark k)) := by
  unfold BitMap.find
  rcases h : (List.range bm.n).find? (fun i => !bm.bits i) with _ | k
  · left
    refine ⟨?_, rfl⟩
    rw [List.find?_eq_none] at h
    unfold BitMap.NumClear
    rw [List.countP_eq_zero]
    intro a ha
    exact h a ha
  · right
    have hk : k < bm.n := List.mem_range.mp (List.mem_of_find?_eq_some h)
    have hb : bm.bits k = false := by
      have := List.find?_some h
      simpa using this
    exact ⟨k, hk, hb, rfl⟩

theorem BitMap.find_pos (bm : BitMap) (h : 0 < bm.NumClear) :
    ∃ k : Nat, k < bm.n ∧ bm.bits k = false ∧ bm.find = ((k : Int), bm.mark k) := by
  rcases bm.find_cases with ⟨h0, _⟩ | hk
  · omega
  · exact hk

theorem BitMap.find_le (bm : BitMap) : bm.le (bm.find).2 := by
  rcases bm.find_cases with ⟨_, h⟩ | ⟨k, _, _, h⟩
  · rw [h]; exact bm.le_refl
  · rw [h]; exact bm.mark_le k

/-- A successful Test pins the sector to a set bit; after a Clear the bit is
clear, the count of clear bits grows by one, and nothing else changes. -/
theorem BitMap.Clear_spec (bm : BitMap) (s : Int) (h : bm.Test s = true) :
    (bm.Clear s).n = bm.n ∧
    (bm.Clear s).NumClear = bm.NumClear + 1 ∧
    (bm.Clear s).bits s.toNat = false ∧
    (∀ k : Nat, k ≠ s.toNat → (bm.Clear s).bits k = bm.bits k) := by
  rw [BitMap.Test_true_iff] at h
  obtain ⟨k, rfl, hk, hb⟩ := h
  unfold BitMap.Clear
  rw [if_pos ⟨by omega, by omega⟩]
  refine ⟨rfl, ?_, ?_, ?_⟩
  · unfold BitMap.NumClear
    simpa using countP_update_false bm.bits k hb (List.range bm.n) (List.nodup_range _)
      (List.mem_range.mpr hk)
  · simp [Function.update_same]
  · intro j hj
    simp only [Int.toNat_natCast] at hj ⊢
    simp [Function.update_noteq hj]

/-- Clear never sets a bit. -/
theorem BitMap.Clear_bits_false {bm : BitMap} {k : Nat} (h : bm.bits k = false) (s : Int) :
    (bm.Clear s).bits k = false := by
  unfold BitMap.Clear
  split
  · rcases eq_or_ne k s.toNat with rfl | hne
    · simp [Function.update_same]
    · simpa [Function.update_noteq hne] using h
  · exact h

theorem BitMap.Clear_n (bm : BitMap) (s : Int) : (bm.Clear s).n = bm.n := by
  unfold BitMap.Clear
  split <;> rfl

/-- Test at a sector different from the cleared one is unchanged. -/
theorem BitMap.Clear_Test_frame (bm : BitMap) (s s' : Int) (hne : s' ≠ s) :
    (bm.Clear s).Test s' = bm.Test s' := by
  unfold BitMap.Clear BitMap.Test
  split
  · next hin =>
      simp only
      split
      · next hin' =>
          have : s'.toNat ≠ s.toNat := by omega
          simp [Function.update_noteq this]
      · rfl
  · rfl

theorem BitMap.mark_n (bm : BitMap) (k : Nat) : (bm.mark k).n = bm.n := rfl

theorem BitMap.mark_bits_self (bm : BitMap) (k : Nat) : (bm.mark k).bits k = true := by
  simp [BitMap.mark, Function.update_same]

theorem BitMap.mark_bits_of_ne (bm : BitMap) {j k : Nat} (h : j ≠ k) :
    (bm.mark k).bits j = bm.bits j := by
  simp [BitMap.mark, Function.update_noteq h]

theorem BitMap.mark_bits_false (bm : BitMap) {j k : Nat}
    (h : (bm.mark k).bits j = false) : j ≠ k ∧ bm.bits j = false := by
  rcases eq_or_ne j k with rfl | hne
  · rw [bm.mark_bits_self j] at h
    cases h
  · rw [bm.mark_bits_of_ne hne] at h
    exact ⟨hne, h⟩

theorem BitMap.Test_of_bits (bm : BitMap) {k : Nat} (hk : k < bm.n)
    (hb : bm.bits k = true) : bm.Test (k : Int) = true :=
  (bm.Test_true_iff _).mpr ⟨k, rfl, hk, hb⟩

/-! ### allocLoop lemmas -/

theorem allocLoop_frame : ∀ (c : Nat) (bm : BitMap) (f : Nat → Int) (i j : Nat),
    j < i ∨ i + c ≤ j → (allocLoop c bm f i).1 j = f j := by
  intro c
  induction c with
  | zero => intro bm f i j _; rfl
  | succ c ih =>
      intro bm f i j hj
      rw [allocLoop]
      rw [ih _ _ _ j (by omega)]
      exact Function.update_noteq (by omega) _ _

theorem allocLoop_le : ∀ (c : Nat) (bm : BitMap) (f : Nat → Int) (i : Nat),
    bm.le (allocLoop c bm f i).2 := by
  intro c
  induction c with
  | zero => intro bm f i; exact bm.le_refl
  | succ c ih =>
      intro bm f i
      rw [allocLoop]
      exact BitMap.le_trans bm.find_le (ih _ _ _)

theorem allocLoop_n (c : Nat) (bm : BitMap) (f : Nat → Int) (i : Nat) :
    (allocLoop c bm f i).2.n = bm.n := ((allocLoop_le c bm f i).1).symm

/-- The drawing loop, given enough clear bits: the count of clear bits drops
by the number of draws, every drawn slot holds a sector that was clear on
entry and is allocated on exit, and the drawn slots are pairwise distinct. -/
theorem allocLoop_spec : ∀ (c : Nat) (bm : BitMap) (f : Nat → Int) (i : Nat),
    c ≤ bm.NumClear →
    (allocLoop c bm f i).2.NumClear = bm.NumClear - c ∧
    (∀ j, i ≤ j → j < i + c →
      (∃ k : Nat, (allocLoop c bm f i).1 j = (k : Int) ∧ k < bm.n ∧ bm.bits k = false) ∧
      (allocLoop c bm f i).2.Test ((allocLoop c bm f i).1 j) = true) ∧
    (∀ j1 j2, i ≤ j1 → j1 < i + c → i ≤ j2 → j2 < i + c → j1 ≠ j2 →
      (allocLoop c bm f i).1 j1 ≠ (allocLoop c bm f i).1 j2) := by
  intro c
  induction c with
  | zero =>
      intro bm f i _
      refine ⟨by simp [allocLoop], ?_, ?_⟩
      · intro j h1 h2; omega
      · intro j1 j2 h1 h2 _ _ _; omega
  | succ c ih =>
      intro bm f i hc
      obtain ⟨k, hk, hbk, hfind⟩ := bm.find_pos (by omega)
      have hrw : allocLoop (c + 1) bm f i =
          allocLoop c (bm.mark k) (Function.update f i (k : Int)) (i + 1) := by
        rw [allocLoop, hfind]
      have hmn : (bm.mark k).NumClear = bm.NumClear - 1 := bm.mark_NumClear k hk hbk
      obtain ⟨ihN, ihJ, ihInj⟩ :=
        ih (bm.mark k) (Function.update f i (k : Int)) (i + 1) (by omega)
      have hvi : (allocLoop c (bm.mark k) (Function.update f i (k : Int)) (i + 1)).1 i
          = (k : Int) := by
        rw [allocLoop_frame _ _ _ _ i (by omega)]
        exact Function.update_same _ _ _
      rw [hrw]
      refine ⟨by omega, ?_, ?_⟩
      · intro j h1 h2
        rcases eq_or_lt_of_le h1 with rfl | hlt
        · refine ⟨⟨k, hvi, hk, hbk⟩, ?_⟩
          rw [hvi]
          exact BitMap.Test_mono (allocLoop_le _ _ _ _)
            ((bm.mark k).Test_of_bits hk (bm.mark_bits_self k))
        · obtain ⟨⟨k2, he2, hk2, hb2⟩, ht2⟩ := ihJ j (by omega) (by omega)
          obtain ⟨hne2, hb2'⟩ := bm.mark_bits_false hb2
          exact ⟨⟨k2, he2, hk2, hb2'⟩, ht2⟩
      · intro j1 j2 h1 h2 h3 h4 hne
        rcases eq_or_lt_of_le h1 with rfl | hlt1
        · obtain ⟨⟨k2, he2, _, hb2⟩, _⟩ := ihJ j2 (by omega) (by omega)
          obtain ⟨hne2, _⟩ := bm.mark_bits_false hb2
          rw [hvi, he2]
          intro hcast
          exact hne2 (by exact_mod_cast hcast.symm)
        · rcases eq_or_lt_of_le h3 with rfl | hlt2
          · obtain ⟨⟨k1, he1, _, hb1⟩, _⟩ := ihJ j1 (by omega) (by omega)
            obtain ⟨hne1, _⟩ := bm.mark_bits_false hb1
            rw [hvi, he1]
            intro hcast
            exact hne1 (by exact_mod_cast hcast)
          · exact ihInj j1 j2 (by omega) (by omega) (by omega) (by omega) hne

/-! ### clearLoop lemmas -/

theorem clearLoop_some_head {c : Nat} {bm : BitMap} {f : Nat → Int} {i : Nat} {bm1 : BitMap}
    (h : clearLoop (c + 1) bm f i = some bm1) : bm.Test (f i) = true := by
  by_cases ht : bm.Test (f i) = true
  · exact ht
  · rw [clearLoop, if_neg ht] at h
    cases h

theorem clearLoop_bits_false_mono : ∀ (c : Nat) (bm : BitMap) (f : Nat → Int) (i : Nat)
    (bm1 : BitMap), clearLoop c bm f i = some bm1 →
    ∀ k : Nat, bm.bits k = false → bm1.bits k = false := by
  intro c
  induction c with
  | zero =>
      intro bm f i bm1 h k hk
      rw [clearLoop] at h
      cases h
      exact hk
  | succ c ih =>
      intro bm f i bm1 h k hk
      have ht := clearLoop_some_head h
      rw [clearLoop, if_pos ht] at h
      exact ih _ _ _ _ h k (BitMap.Clear_bits_false hk _)

theorem clearLoop_n_mono : ∀ (c : Nat) (bm : BitMap) (f : Nat → Int) (i : Nat)
    (bm1 : BitMap), clearLoop c bm f i = some bm1 → bm1.n = bm.n := by
  intro c
  induction c with
  | zero =>
      intro bm f i bm1 h
      rw [clearLoop] at h
      cases h
      rfl
  | succ c ih =>
      intro bm f i bm1 h
      have ht := clearLoop_some_head h
      rw [clearLoop, if_pos ht] at h
      rw [ih _ _ _ _ h, BitMap.Clear_n]

/-- A successful clearing pass leaves every processed sector clear. -/
theorem clearLoop_cleared : ∀ (c : Nat) (bm : BitMap) (f : Nat → Int) (i : Nat)
    (bm1 : BitMap), clearLoop c bm f i = some bm1 →
    ∀ j, i ≤ j → j < i + c → bm1.Test (f j) = false := by
  intro c
  induction c with
  | zero => intro bm f i bm1 _ j h1 h2; omega
  | succ c ih =>
      intro bm f i bm1 h j h1 h2
      have ht := clearLoop_some_head h
      rw [clearLoop, if_pos ht] at h
      rcases eq_or_lt_of_le h1 with rfl | hlt
      · obtain ⟨k0, he0, hk0, hb0⟩ := (bm.Test_true_iff _).mp ht
        obtain ⟨_, _, hcb, _⟩ := bm.Clear_spec _ ht
        rw [he0] at h hcb ⊢
        simp only [Int.toNat_natCast] at hcb
        exact BitMap.Test_false_of_bits (clearLoop_bits_false_mono _ _ _ _ _ h k0 hcb)
      · exact ih _ _ _ _ h j (by omega) (by omega)

/-- The clearing loop, applied to pairwise-distinct sectors that are all
allocated: it completes (no assertion fires), the count of clear bits grows
by the number of sectors cleared, and all other sectors keep their state. -/
theorem clearLoop_spec : ∀ (c : Nat) (bm : BitMap) (f : Nat → Int) (i : Nat),
    (∀ j, i ≤ j → j < i + c → bm.Test (f j) = true) →
    (∀ j1 j2, i ≤ j1 → j1 < i + c → i ≤ j2 → j2 < i + c → j1 ≠ j2 → f j1 ≠ f j2) →
    ∃ bm1, clearLoop c bm f i = some bm1 ∧ bm1.NumClear = bm.NumClear + c ∧
      (∀ s : Int, (∀ j, i ≤ j → j < i + c → f j ≠ s) → bm1.Test s = bm.Test s) := by
  intro c
  induction c with
  | zero =>
      intro bm f i _ _
      exact ⟨bm, rfl, by omega, fun s _ => rfl⟩
  | succ c ih =>
      intro bm f i hset hinj
      have ht : bm.Test (f i) = true := hset i (Nat.le_refl i) (by omega)
      obtain ⟨hn, hN, hb, hframe⟩ := bm.Clear_spec (f i) ht
      have hTframe : ∀ s : Int, s ≠ f i → (bm.Clear (f i)).Test s = bm.Test s :=
        fun s hs => bm.Clear_Test_frame (f i) s hs
      obtain ⟨bm1, heq, hN1, hfr1⟩ := ih (bm.Clear (f i)) f (i + 1)
        (fun j h1 h2 => by
          rw [hTframe (f j) (hinj j i (by omega) (by omega) (by omega) (by omega) (by omega))]
          exact hset j (by omega) (by omega))
        (fun j1 j2 h1 h2 h3 h4 hne =>
          hinj j1 j2 (by omega) (by omega) (by omega) (by omega) hne)
      refine ⟨bm1, ?_, by omega, ?_⟩
      · rw [clearLoop, if_pos ht]
        exact heq
      · intro s hs
        rw [hfr1 s (fun j h1 h2 => hs j (by omega) (by omega)),
          hTframe s (fun h => (hs i (Nat.le_refl i) (by omega)) h.symm)]

/-! ### Helper lemmas for freshness and distinctness transport -/

theorem BitMap.bits_of_Test {bm : BitMap} {k : Nat} (h : bm.Test (k : Int) = true) :
    k < bm.n ∧ bm.bits k = true := by
  obtain ⟨a, ha, hn, hb⟩ := (bm.Test_true_iff _).mp h
  have hak : a = k := by exact_mod_cast ha.symm
  subst hak
  exact ⟨hn, hb⟩

theorem BitMap.le_bits_false {a b : BitMap} (h : a.le b) {k : Nat}
    (hb : b.bits k = false) : a.bits k = false := by
  cases hab : a.bits k with
  | false => rfl
  | true =>
      have hbt := h.2 k hab
      rw [hb] at hbt
      cases hbt

theorem ne_int_of_bits {bm : BitMap} {k1 k2 : Nat} (h1 : bm.bits k1 = true)
    (h2 : bm.bits k2 = false) : (k1 : Int) ≠ (k2 : Int) := by
  intro h
  have he : k1 = k2 := by exact_mod_cast h
  subst he
  rw [h1] at h2
  cases h2

theorem fresh_downcast {bm bm2 : BitMap} (hle : bm.le bm2) {v : Int}
    (h : ∃ k : Nat, v = (k : Int) ∧ k < bm2.n ∧ bm2.bits k = false) :
    ∃ k : Nat, v = (k : Int) ∧ k < bm.n ∧ bm.bits k = false := by
  obtain ⟨k, rfl, hk, hb⟩ := h
  have hn := hle.1
  exact ⟨k, rfl, by omega, BitMap.le_bits_false hle hb⟩

theorem find_fst_ne {bm : BitMap} {s : Int} (h : bm.Test s = true) : (bm.find).1 ≠ s := by
  obtain ⟨k0, rfl, hk0, hb0⟩ := (bm.Test_true_iff _).mp h
  rcases bm.find_cases with ⟨_, hf⟩ | ⟨k, _, hbk, hf⟩
  · rw [hf]
    intro hcast
    omega
  · rw [hf]
    exact (ne_int_of_bits hb0 hbk).symm

/-! ### nodeAllocLoop lemmas -/

theorem nodeAllocLoop_slots_frame (cfg : Cfg) (numNode numSectors : Nat) :
    ∀ (c i : Nat) (bm : BitMap) (slots : Nat → Int) (disk : Disk) (j : Nat),
    j < i ∨ i + c ≤ j →
    (nodeAllocLoop cfg numNode numSectors c i bm slots disk).1 j = slots j := by
  intro c
  induction c with
  | zero => intro i bm slots disk j _; rfl
  | succ c ih =>
      intro i bm slots disk j hj
      rw [nodeAllocLoop]
      rw [ih _ _ _ _ j (by omega)]
      exact Function.update_noteq (by omega) _ _

theorem nodeAllocLoop_le (cfg : Cfg) (numNode numSectors : Nat) :
    ∀ (c i : Nat) (bm : BitMap) (slots : Nat → Int) (disk : Disk),
    bm.le (nodeAllocLoop cfg numNode numSectors c i bm slots disk).2.2 := by
  intro c
  induction c with
  | zero => intro i bm slots disk; exact bm.le_refl
  | succ c ih =>
      intro i bm slots disk
      rw [nodeAllocLoop]
      exact BitMap.le_trans bm.find_le (BitMap.le_trans (allocLoop_le _ _ _ _) (ih _ _ _ _))

/-- Disk sectors whose bit is allocated on entry are never written by the
node-allocation loop (it writes only at freshly drawn node sectors, or at
the `-1` sentinel). -/
theorem nodeAllocLoop_disk_frame (cfg : Cfg) (numNode numSectors : Nat) :
    ∀ (c i : Nat) (bm : BitMap) (slots : Nat → Int) (disk : Disk) (s : Int),
    bm.Test s = true →
    (nodeAllocLoop cfg numNode numSectors c i bm slots disk).2.1 s = disk s := by
  intro c
  induction c with
  | zero => intro i bm slots disk s _; rfl
  | succ c ih =>
      intro i bm slots disk s hT
      have hT2 : ((allocLoop (tailCnt cfg numNode numSectors i) (bm.find).2
          (fun _ => (0 : Int)) 0).2).Test s = true :=
        BitMap.Test_mono (allocLoop_le _ _ _ _) (BitMap.Test_mono bm.find_le hT)
      rw [nodeAllocLoop]
      rw [ih _ _ _ _ s hT2]
      exact Function.update_noteq (Ne.symm (find_fst_ne hT)) _ _

/-- The node-allocation loop invariant: starting at node position `i` with
`c = numNode - i` nodes to build and enough clear bits for all remaining
draws, the loop consumes exactly one draw per node plus one per entry, every
node sector and every valid entry is a freshly drawn, now-allocated sector,
all of them are pairwise distinct, earlier slots and foreign disk sectors
are untouched. -/
theorem nodeAllocLoop_spec (cfg : Cfg) (numNode numSectors : Nat)
    (hcnt : numSectors ≤ numNode * cfg.numSecond)
    (hlow : cfg.numSecond * (numNode - 1) < numSectors) :
    ∀ (c i : Nat) (bm : BitMap) (slots : Nat → Int) (disk : Disk)
      (S : Nat → Int) (D : Disk) (B : BitMap),
    i + c = numNode →
    c + (numSectors - cfg.numSecond * i) ≤ bm.NumClear →
    nodeAllocLoop cfg numNode numSectors c i bm slots disk = (S, D, B) →
    B.NumClear = bm.NumClear - (c + (numSectors - cfg.numSecond * i)) ∧
    (∀ j, i ≤ j → j < numNode →
      (∃ k : Nat, S j = (k : Int) ∧ k < bm.n ∧ bm.bits k = false) ∧ B.Test (S j) = true) ∧
    (∀ j t, i ≤ j → j < numNode → t < tailCnt cfg numNode numSectors j →
      (∃ k : Nat, D (S j) t = (k : Int) ∧ k < bm.n ∧ bm.bits k = false) ∧
        B.Test (D (S j) t) = true) ∧
    (∀ j1 j2, i ≤ j1 → j1 < numNode → i ≤ j2 → j2 < numNode → j1 ≠ j2 → S j1 ≠ S j2) ∧
    (∀ j1 t1 j2 t2, i ≤ j1 → j1 < numNode → i ≤ j2 → j2 < numNode →
      t1 < tailCnt cfg numNode numSectors j1 → t2 < tailCnt cfg numNode numSectors j2 →
      ¬(j1 = j2 ∧ t1 = t2) → D (S j1) t1 ≠ D (S j2) t2) ∧
    (∀ j1 j2 t2, i ≤ j1 → j1 < numNode → i ≤ j2 → j2 < numNode →
      t2 < tailCnt cfg numNode numSectors j2 → S j1 ≠ D (S j2) t2) ∧
    (∀ s : Int, (∀ j, i ≤ j → j < numNode → S j ≠ s) → D s = disk s) := by
  intro c
  induction c with
  | zero =>
      intro i bm slots disk S D B hic hclear heq
      rw [nodeAllocLoop] at heq
      have hS : slots = S := congrArg Prod.fst heq
      have hD : disk = D := congrArg (fun p => p.2.1) heq
      have hB : bm = B := congrArg (fun p => p.2.2) heq
      subst hS hD hB
      have hmeq : cfg.numSecond * i = cfg.numSecond * numNode := by
        rw [show i = numNode by omega]
      have hcomm : numNode * cfg.numSecond = cfg.numSecond * numNode := by ring
      refine ⟨by omega, ?_, ?_, ?_, ?_, ?_, fun s _ => rfl⟩
      · intro j h1 h2; omega
      · intro j t h1 h2 _; omega
      · intro j1 j2 h1 h2 _ _ _; omega
      · intro j1 t1 j2 t2 h1 h2 _ _ _ _ _; omega
      · intro j1 j2 t2 h1 h2 _ _ _; omega
  | succ c ih =>
      intro i bm slots disk S D B hic hclear heq
      have hin : i < numNode := by omega
      have h1le : cfg.numSecond * i ≤ cfg.numSecond * (numNode - 1) :=
        Nat.mul_le_mul_left _ (by omega)
      obtain ⟨k, hk, hbk, hfind⟩ := bm.find_pos (by omega)
      have hmul1 : cfg.numSecond * (i + 1) = cfg.numSecond * i + cfg.numSecond := by ring
      have harith : tailCnt cfg numNode numSectors i +
          (c + (numSectors - cfg.numSecond * (i + 1))) + 1
          = (c + 1) + (numSectors - cfg.numSecond * i) := by
        unfold tailCnt
        split
        · next hi2 =>
            have h2le : cfg.numSecond * (i + 1) ≤ cfg.numSecond * (numNode - 1) :=
              Nat.mul_le_mul_left _ (by omega)
            omega
        · next hi2 =>
            have hieq : i = numNode - 1 := by omega
            have hmeq : cfg.numSecond * i = cfg.numSecond * (numNode - 1) := by rw [hieq]
            have hi1 : i + 1 = numNode := by omega
            have hup : numSectors ≤ cfg.numSecond * (i + 1) := by
              have hcomm : numNode * cfg.numSecond = cfg.numSecond * numNode := by ring
              rw [hi1]
              omega
            omega
      have hmk : (bm.mark k).NumClear = bm.NumClear - 1 := bm.mark_NumClear k hk hbk
      have hmle : tailCnt cfg numNode numSectors i ≤ (bm.mark k).NumClear := by omega
      obtain ⟨haN, haJ, haInj⟩ :=
        allocLoop_spec (tailCnt cfg numNode numSectors i) (bm.mark k) (fun _ => (0 : Int)) 0 hmle
      have hrw : nodeAllocLoop cfg numNode numSectors (c + 1) i bm slots disk
          = nodeAllocLoop cfg numNode numSectors c (i + 1)
              (allocLoop (tailCnt cfg numNode numSectors i) (bm.mark k) (fun _ => (0 : Int)) 0).2
              (Function.update slots i (k : Int))
              (writeSector disk (k : Int)
                (allocLoop (tailCnt cfg numNode numSectors i) (bm.mark k)
                  (fun _ => (0 : Int)) 0).1) := by
        rw [nodeAllocLoop, hfind]
      rw [hrw] at heq
      set m := tailCnt cfg numNode numSectors i with hmdef
      set node := (allocLoop m (bm.mark k) (fun _ => (0 : Int)) 0).1 with hnodedef
      set bm2 := (allocLoop m (bm.mark k) (fun _ => (0 : Int)) 0).2 with hbm2def
      have hlemark : bm.le (bm.mark k) := bm.mark_le k
      have hle2 : bm.le bm2 := BitMap.le_trans hlemark (allocLoop_le _ _ _ _)
      have hbm2n : bm2.n = bm.n := by rw [hbm2def, allocLoop_n, BitMap.mark_n]
      have hclear2 : c + (numSectors - cfg.numSecond * (i + 1)) ≤ bm2.NumClear := by
        have h2 : bm2.NumClear = (bm.mark k).NumClear - m := haN
        omega
      obtain ⟨ihN, ihS, ihE, ihSinj, ihEinj, ihX, ihD⟩ :=
        ih (i + 1) bm2 (Function.update slots i (k : Int))
          (writeSector disk (k : Int) node) S D B (by omega) hclear2 heq
      have hS1 : (nodeAllocLoop cfg numNode numSectors c (i + 1) bm2
          (Function.update slots i (k : Int)) (writeSector disk (k : Int) node)).1 = S := by
        rw [heq]
      have hB1 : (nodeAllocLoop cfg numNode numSectors c (i + 1) bm2
          (Function.update slots i (k : Int)) (writeSector disk (k : Int) node)).2.2 = B := by
        rw [heq]
      have hSi : S i = (k : Int) := by
        rw [← hS1, nodeAllocLoop_slots_frame _ _ _ _ _ _ _ _ i (by omega)]
        exact Function.update_same _ _ _
      have hle2B : bm2.le B := hB1 ▸ nodeAllocLoop_le cfg numNode numSectors c (i + 1) bm2 _ _
      have hkbm2 : bm2.bits k = true :=
        (allocLoop_le m (bm.mark k) (fun _ => (0 : Int)) 0).2 k (bm.mark_bits_self k)
      have hTkB : B.Test (k : Int) = true :=
        BitMap.Test_mono hle2B (bm2.Test_of_bits (by omega) hkbm2)
      -- the final disk holds the node written for position i at sector k
      have hDk : D (k : Int) = node := by
        have hall : ∀ j, i + 1 ≤ j → j < numNode → S j ≠ (k : Int) := by
          intro j hj1 hj2
          obtain ⟨⟨k2, he2, hk2, hb2⟩, _⟩ := ihS j hj1 hj2
          rw [he2]
          exact (ne_int_of_bits hkbm2 hb2).symm
        rw [ihD (k : Int) hall]
        exact Function.update_same _ _ _
      -- entry values of node i, at the bm2 level
      have hnodeT : ∀ t, t < m → bm2.Test (node t) = true := by
        intro t ht
        exact (haJ t (by omega) (by omega)).2
      have hnodeBits : ∀ t, t < m → ∃ k2 : Nat, node t = (k2 : Int) ∧ k2 < bm2.n ∧
          bm2.bits k2 = true := by
        intro t ht
        obtain ⟨⟨k2, he2, _, _⟩, hT⟩ := haJ t (by omega) (by omega)
        rw [he2] at hT
        obtain ⟨hk2n, hk2b⟩ := BitMap.bits_of_Test hT
        exact ⟨k2, he2, hk2n, hk2b⟩
      have hnodeFreshBm : ∀ t, t < m → ∃ k2 : Nat, node t = (k2 : Int) ∧ k2 < bm.n ∧
          bm.bits k2 = false := by
        intro t ht
        obtain ⟨⟨k2, he2, hk2, hb2⟩, _⟩ := haJ t (by omega) (by omega)
        obtain ⟨_, hb2'⟩ := (bm.mark_bits_false hb2)
        exact ⟨k2, he2, hk2, hb2'⟩
      have hSfreshBm2 : ∀ j, i + 1 ≤ j → j < numNode →
          ∃ k2 : Nat, S j = (k2 : Int) ∧ k2 < bm2.n ∧ bm2.bits k2 = false := by
        intro j h1 h2
        exact (ihS j h1 h2).1
      have hEfreshBm2 : ∀ j t, i + 1 ≤ j → j < numNode → t < tailCnt cfg numNode numSectors j →
          ∃ k2 : Nat, D (S j) t = (k2 : Int) ∧ k2 < bm2.n ∧ bm2.bits k2 = false := by
        intro j t h1 h2 ht
        exact (ihE j t h1 h2 ht).1
      refine ⟨?_, ?_, ?_, ?_, ?_, ?_, ?_⟩
      · -- clear-bit count
        have h2 : bm2.NumClear = (bm.mark k).NumClear - m := haN
        omega
      · -- node slots: fresh and marked
        intro j h1 h2
        rcases eq_or_lt_of_le h1 with rfl | hlt
        · exact ⟨⟨k, hSi, hk, hbk⟩, by rw [hSi]; exact hTkB⟩
        · obtain ⟨hfresh, hT⟩ := ihS j (by omega) h2
          exact ⟨fresh_downcast hle2 hfresh, hT⟩
      · -- node entries: fresh and marked
        intro j t h1 h2 ht
        rcases eq_or_lt_of_le h1 with rfl | hlt
        · rw [hSi, hDk]
          refine ⟨hnodeFreshBm t ht, ?_⟩
          exact BitMap.Test_mono hle2B (hnodeT t ht)
        · obtain ⟨hfresh, hT⟩ := ihE j t (by omega) h2 ht
          exact ⟨fresh_downcast hle2 hfresh, hT⟩
      · -- node slots pairwise distinct
        intro j1 j2 h1 h2 h3 h4 hne
        rcases eq_or_lt_of_le h1 with rfl | hlt1
        · obtain ⟨k2, he2, _, hb2⟩ := hSfreshBm2 j2 (by omega) h4
          rw [hSi, he2]
          exact ne_int_of_bits hkbm2 hb2
        · rcases eq_or_lt_of_le h3 with rfl | hlt2
          · obtain ⟨k1, he1, _, hb1⟩ := hSfreshBm2 j1 (by omega) h2
            rw [hSi, he1]
            exact (ne_int_of_bits hkbm2 hb1).symm
          · exact ihSinj j1 j2 (by omega) h2 (by omega) h4 hne
      · -- entries pairwise distinct
        intro j1 t1 j2 t2 h1 h2 h3 h4 ht1 ht2 hne
        rcases eq_or_lt_of_le h1 with rfl | hlt1
        · rcases eq_or_lt_of_le h3 with heq2 | hlt2
          · -- both are entries of node i
            subst heq2
            rw [hSi, hDk]
            have htne : t1 ≠ t2 := fun h => hne ⟨rfl, h⟩
            exact haInj t1 t2 (by omega) (by omega) (by omega) (by omega) htne
          · -- node i entry (marked in bm2) vs later entry (fresh in bm2)
            obtain ⟨k1, he1, _, hb1⟩ := hnodeBits t1 ht1
            obtain ⟨k2, he2, _, hb2⟩ := hEfreshBm2 j2 t2 (by omega) h4 ht2
            rw [hSi, hDk, he1, he2]
            exact ne_int_of_bits hb1 hb2
        · rcases eq_or_lt_of_le h3 with heq2 | hlt2
          · subst heq2
            obtain ⟨k1, he1, _, hb1⟩ := hEfreshBm2 j1 t1 (by omega) h2 ht1
            obtain ⟨k2, he2, _, hb2⟩ := hnodeBits t2 ht2
            rw [hSi, hDk, he1, he2]
            exact (ne_int_of_bits hb2 hb1).symm
          · exact ihEinj j1 t1 j2 t2 (by omega) h2 (by omega) h4 ht1 ht2 hne
      · -- node sectors never equal entry sectors
        intro j1 j2 t2 h1 h2 h3 h4 ht2
        rcases eq_or_lt_of_le h1 with rfl | hlt1
        · rcases eq_or_lt_of_le h3 with heq2 | hlt2
          · subst heq2
            rw [hSi, hDk]
            obtain ⟨⟨k2, he2, _, hb2m⟩, _⟩ := haJ t2 (by omega) (by omega)
            have hb2 := (bm.mark_bits_false hb2m).1
            rw [he2]
            intro hcast
            exact hb2 (by exact_mod_cast hcast.symm)
          · obtain ⟨k2, he2, _, hb2⟩ := hEfreshBm2 j2 t2 (by omega) h4 ht2
            rw [hSi, he2]
            exact ne_int_of_bits hkbm2 hb2
        · rcases eq_or_lt_of_le h3 with heq2 | hlt2
          · subst heq2
            obtain ⟨k1, he1, _, hb1⟩ := hSfreshBm2 j1 (by omega) h2
            obtain ⟨k2, he2, _, hb2⟩ := hnodeBits t2 ht2
            rw [hSi, hDk, he1, he2]
            exact (ne_int_of_bits hb2 hb1).symm
          · exact ihX j1 j2 t2 (by omega) h2 (by omega) h4 ht2
      · -- disk frame
        intro s hs
        have hres : D s = writeSector disk (k : Int) node s :=
          ihD s (fun j hj1 hj2 => hs j (by omega) hj2)
        rw [hres]
        have hks : s ≠ (k : Int) := by
          intro hss
          exact hs i (Nat.le_refl i) hin (by rw [hSi, hss])
        exact Function.update_noteq hks _ _

/-! ### nodeClearLoop lemmas -/

theorem tailCnt_arith (cfg : Cfg) (numNode numSectors c i : Nat)
    (hic : i + (c + 1) = numNode)
    (hcnt : numSectors ≤ numNode * cfg.numSecond)
    (hlow : cfg.numSecond * (numNode - 1) < numSectors) :
    tailCnt cfg numNode numSectors i + (c + (numSectors - cfg.numSecond * (i + 1))) + 1
      = (c + 1) + (numSectors - cfg.numSecond * i) := by
  have h1le : cfg.numSecond * i ≤ cfg.numSecond * (numNode - 1) :=
    Nat.mul_le_mul_left _ (by omega)
  have hmul1 : cfg.numSecond * (i + 1) = cfg.numSecond * i + cfg.numSecond := by ring
  unfold tailCnt
  split
  · next hi2 =>
      have h2le : cfg.numSecond * (i + 1) ≤ cfg.numSecond * (numNode - 1) :=
        Nat.mul_le_mul_left _ (by omega)
      omega
  · next hi2 =>
      have hieq : i = numNode - 1 := by omega
      have hmeq : cfg.numSecond * i = cfg.numSecond * (numNode - 1) := by rw [hieq]
      have hi1 : i + 1 = numNode := by omega
      have hup : numSectors ≤ cfg.numSecond * (i + 1) := by
        have hcomm : numNode * cfg.numSecond = cfg.numSecond * numNode := by ring
        rw [hi1]
        omega
      omega

theorem nodeClearLoop_succ_some {cfg : Cfg} {numNode numSectors : Nat}
    {disk : Disk} {slots : Nat → Int} {c i : Nat} {bm bmA : BitMap}
    (hA : clearLoop (tailCnt cfg numNode numSectors i) bm (disk (slots i)) 0 = some bmA) :
    nodeClearLoop cfg numNode numSectors disk slots (c + 1) i bm
      = if bmA.Test (slots i) = true then
          nodeClearLoop cfg numNode numSectors disk slots c (i + 1) (bmA.Clear (slots i))
        else none := by
  rw [nodeClearLoop, hA]

theorem nodeClearLoop_succ_none {cfg : Cfg} {numNode numSectors : Nat}
    {disk : Disk} {slots : Nat → Int} {c i : Nat} {bm : BitMap}
    (hA : clearLoop (tailCnt cfg numNode numSectors i) bm (disk (slots i)) 0 = none) :
    nodeClearLoop cfg numNode numSectors disk slots (c + 1) i bm = none := by
  rw [nodeClearLoop, hA]

theorem nodeClearLoop_bits_false_mono (cfg : Cfg) (numNode numSectors : Nat)
    (disk : Disk) (slots : Nat → Int) :
    ∀ (c i : Nat) (bm bm1 : BitMap),
    nodeClearLoop cfg numNode numSectors disk slots c i bm = some bm1 →
    ∀ k : Nat, bm.bits k = false → bm1.bits k = false := by
  intro c
  induction c with
  | zero =>
      intro i bm bm1 heq k hk
      rw [nodeClearLoop] at heq
      cases heq
      exact hk
  | succ c ih =>
      intro i bm bm1 heq k hk
      rcases h1 : clearLoop (tailCnt cfg numNode numSectors i) bm (disk (slots i)) 0
        with _ | bmA
      · rw [nodeClearLoop_succ_none h1] at heq
        cases heq
      · rw [nodeClearLoop_succ_some h1] at heq
        by_cases ht : bmA.Test (slots i) = true
        · rw [if_pos ht] at heq
          have hA := clearLoop_bits_false_mono _ _ _ _ _ h1 k hk
          exact ih _ _ _ heq k (BitMap.Clear_bits_false hA _)
        · rw [if_neg ht] at heq
          cases heq

/-- The node-clearing loop run over a layout whose node sectors and entries
are all allocated and pairwise distinct: no assertion fires, the count of
clear bits grows by one per node plus one per valid entry, and all other
sectors keep their state. -/
theorem nodeClearLoop_spec (cfg : Cfg) (numNode numSectors : Nat)
    (hcnt : numSectors ≤ numNode * cfg.numSecond)
    (hlow : cfg.numSecond * (numNode - 1) < numSectors)
    (disk : Disk) (slots : Nat → Int) :
    ∀ (c i : Nat) (bm : BitMap),
    i + c = numNode →
    (∀ j, i ≤ j → j < numNode → bm.Test (slots j) = true) →
    (∀ j t, i ≤ j → j < numNode → t < tailCnt cfg numNode numSectors j →
      bm.Test (disk (slots j) t) = true) →
    (∀ j1 j2, i ≤ j1 → j1 < numNode → i ≤ j2 → j2 < numNode → j1 ≠ j2 →
      slots j1 ≠ slots j2) →
    (∀ j1 t1 j2 t2, i ≤ j1 → j1 < numNode → i ≤ j2 → j2 < numNode →
      t1 < tailCnt cfg numNode numSectors j1 → t2 < tailCnt cfg numNode numSectors j2 →
      ¬(j1 = j2 ∧ t1 = t2) → disk (slots j1) t1 ≠ disk (slots j2) t2) →
    (∀ j1 j2 t2, i ≤ j1 → j1 < numNode → i ≤ j2 → j2 < numNode →
      t2 < tailCnt cfg numNode numSectors j2 → slots j1 ≠ disk (slots j2) t2) →
    ∃ bm1, nodeClearLoop cfg numNode numSectors disk slots c i bm = some bm1 ∧
      bm1.NumClear = bm.NumClear + (c + (numSectors - cfg.numSecond * i)) ∧
      (∀ s : Int, (∀ j, i ≤ j → j < numNode → slots j ≠ s ∧
          ∀ t, t < tailCnt cfg numNode numSectors j → disk (slots j) t ≠ s) →
        bm1.Test s = bm.Test s) := by
  intro c
  induction c with
  | zero =>
      intro i bm hic _ _ _ _ _
      have hmeq : cfg.numSecond * i = cfg.numSecond * numNode := by
        rw [show i = numNode by omega]
      have hcomm : numNode * cfg.numSecond = cfg.numSecond * numNode := by ring
      exact ⟨bm, rfl, by omega, fun s _ => rfl⟩
  | succ c ih =>
      intro i bm hic hnode hent hninj heinj hcross
      have hin : i < numNode := by omega
      set m := tailCnt cfg numNode numSectors i with hmdef
      obtain ⟨bmA, hA, hAN, hAfr⟩ := clearLoop_spec m bm (disk (slots i)) 0
        (fun t _ h2 => hent i t (Nat.le_refl i) hin (by omega))
        (fun t1 t2 _ h2 _ h4 hne =>
          heinj i t1 i t2 (Nat.le_refl i) hin (Nat.le_refl i) hin (by omega) (by omega)
            (fun hp => hne hp.2))
      have hTA : bmA.Test (slots i) = true := by
        rw [hAfr (slots i) (fun t _ h2 =>
          (hcross i i t (Nat.le_refl i) hin (Nat.le_refl i) hin (by omega)).symm)]
        exact hnode i (Nat.le_refl i) hin
      obtain ⟨hBn, hBN, hBb, hBframe⟩ := bmA.Clear_spec (slots i) hTA
      have hTframe : ∀ s : Int, s ≠ slots i → (bmA.Clear (slots i)).Test s = bmA.Test s :=
        fun s hs => bmA.Clear_Test_frame (slots i) s hs
      have harith := tailCnt_arith cfg numNode numSectors c i hic hcnt hlow
      obtain ⟨bm1, heq1, hN1, hfr1⟩ := ih (i + 1) (bmA.Clear (slots i)) (by omega)
        (fun j h1 h2 => by
          rw [hTframe (slots j) (hninj j i (by omega) h2 (by omega) hin (by omega))]
          rw [hAfr (slots j) (fun t _ h4 =>
            (hcross j i t (by omega) h2 (Nat.le_refl i) hin (by omega)).symm)]
          exact hnode j (by omega) h2)
        (fun j t h1 h2 ht => by
          rw [hTframe (disk (slots j) t)
            ((hcross i j t (Nat.le_refl i) hin (by omega) h2 ht).symm)]
          rw [hAfr (disk (slots j) t) (fun t1 _ h4 =>
            heinj i t1 j t (Nat.le_refl i) hin (by omega) h2 (by omega) ht
              (fun hp => by omega))]
          exact hent j t (by omega) h2 ht)
        (fun j1 j2 h1 h2 h3 h4 hne => hninj j1 j2 (by omega) h2 (by omega) h4 hne)
        (fun j1 t1 j2 t2 h1 h2 h3 h4 ht1 ht2 hne =>
          heinj j1 t1 j2 t2 (by omega) h2 (by omega) h4 ht1 ht2 hne)
        (fun j1 j2 t2 h1 h2 h3 h4 ht2 => hcross j1 j2 t2 (by omega) h2 (by omega) h4 ht2)
      refine ⟨bm1, ?_, by omega, ?_⟩
      · rw [nodeClearLoop_succ_some hA, if_pos hTA]
        exact heq1
      · intro s hs
        rw [hfr1 s (fun j h1 h2 => hs j (by omega) h2)]
        rw [hTframe s (fun h => ((hs i (Nat.le_refl i) hin).1) h.symm)]
        exact hAfr s (fun t _ h2 => (hs i (Nat.le_refl i) hin).2 t (by omega))

/-! ### Equation lemmas for the engine operations -/

theorem Allocate_direct_fail (cfg : Cfg) (hdr : FileHeader) (disk : Disk) (bm : BitMap)
    (fileSize : Nat) (hle : divRoundUp fileSize cfg.sectorSize ≤ cfg.numFirst)
    (hsp : bm.NumClear < divRoundUp fileSize cfg.sectorSize) :
    hdr.Allocate cfg disk bm fileSize =
      ⟨false, ⟨fileSize, divRoundUp fileSize cfg.sectorSize, false, hdr.dataSectors⟩,
        disk, bm⟩ := by
  simp only [FileHeader.Allocate]
  rw [if_neg (by omega), if_pos hsp]

theorem Allocate_direct_ok (cfg : Cfg) (hdr : FileHeader) (disk : Disk) (bm : BitMap)
    (fileSize : Nat) (hle : divRoundUp fileSize cfg.sectorSize ≤ cfg.numFirst)
    (hsp : ¬ bm.NumClear < divRoundUp fileSize cfg.sectorSize) :
    hdr.Allocate cfg disk bm fileSize =
      ⟨true, ⟨fileSize, divRoundUp fileSize cfg.sectorSize, false,
          (allocLoop (divRoundUp fileSize cfg.sectorSize) bm hdr.dataSectors 0).1⟩,
        disk, (allocLoop (divRoundUp fileSize cfg.sectorSize) bm hdr.dataSectors 0).2⟩ := by
  simp only [FileHeader.Allocate]
  rw [if_neg (by omega), if_neg hsp]

theorem Allocate_indexed_fail (cfg : Cfg) (hdr : FileHeader) (disk : Disk) (bm : BitMap)
    (fileSize : Nat) (hgt : cfg.numFirst < divRoundUp fileSize cfg.sectorSize)
    (hsp : bm.NumClear < divRoundUp fileSize cfg.sectorSize +
      divRoundUp (divRoundUp fileSize cfg.sectorSize) cfg.numSecond) :
    hdr.Allocate cfg disk bm fileSize =
      ⟨false, ⟨fileSize, divRoundUp fileSize cfg.sectorSize, true, hdr.dataSectors⟩,
        disk, bm⟩ := by
  simp only [FileHeader.Allocate, FileHeader.AllocateWithIndex]
  rw [if_pos (by omega), if_pos hsp]

theorem Allocate_indexed_ok (cfg : Cfg) (hdr : FileHeader) (disk : Disk) (bm : BitMap)
    (fileSize : Nat) (hgt : cfg.numFirst < divRoundUp fileSize cfg.sectorSize)
    (hsp : ¬ bm.NumClear < divRoundUp fileSize cfg.sectorSize +
      divRoundUp (divRoundUp fileSize cfg.sectorSize) cfg.numSecond) :
    hdr.Allocate cfg disk bm fileSize =
      ⟨true, ⟨fileSize, divRoundUp fileSize cfg.sectorSize, true,
          (nodeAllocLoop cfg (divRoundUp (divRoundUp fileSize cfg.sectorSize) cfg.numSecond)
            (divRoundUp fileSize cfg.sectorSize)
            (divRoundUp (divRoundUp fileSize cfg.sectorSize) cfg.numSecond)
            0 bm hdr.dataSectors disk).1⟩,
        (nodeAllocLoop cfg (divRoundUp (divRoundUp fileSize cfg.sectorSize) cfg.numSecond)
            (divRoundUp fileSize cfg.sectorSize)
            (divRoundUp (divRoundUp fileSize cfg.sectorSize) cfg.numSecond)
            0 bm hdr.dataSectors disk).2.1,
        (nodeAllocLoop cfg (divRoundUp (divRoundUp fileSize cfg.sectorSize) cfg.numSecond)
            (divRoundUp fileSize cfg.sectorSize)
            (divRoundUp (divRoundUp fileSize cfg.sectorSize) cfg.numSecond)
            0 bm hdr.dataSectors disk).2.2⟩ := by
  simp only [FileHeader.Allocate, FileHeader.AllocateWithIndex]
  rw [if_pos (by omega), if_neg hsp]

theorem addLength_same (cfg : Cfg) (hdr : FileHeader) (disk : Disk) (bm : BitMap)
    (addBytes : Nat)
    (h : divRoundUp (hdr.numBytes + addBytes) cfg.sectorSize = hdr.numSectors) :
    hdr.addLength cfg disk bm addBytes =
      ⟨true, ⟨hdr.numBytes + addBytes, divRoundUp (hdr.numBytes + addBytes) cfg.sectorSize,
          hdr.useIndex, hdr.dataSectors⟩, disk, bm⟩ := by
  simp only [FileHeader.addLength]
  rw [if_pos h]

theorem addLength_direct (cfg : Cfg) (hdr : FileHeader) (disk : Disk) (bm : BitMap)
    (addBytes : Nat)
    (hne : divRoundUp (hdr.numBytes + addBytes) cfg.sectorSize ≠ hdr.numSectors)
    (hle : divRoundUp (hdr.numBytes + addBytes) cfg.sectorSize ≤ cfg.numFirst) :
    hdr.addLength cfg disk bm addBytes =
      ⟨true, ⟨hdr.numBytes + addBytes, divRoundUp (hdr.numBytes + addBytes) cfg.sectorSize,
          hdr.useIndex,
          (allocLoop (divRoundUp (hdr.numBytes + addBytes) cfg.sectorSize - hdr.numSectors)
            bm hdr.dataSectors hdr.numSectors).1⟩, disk,
        (allocLoop (divRoundUp (hdr.numBytes + addBytes) cfg.sectorSize - hdr.numSectors)
          bm hdr.dataSectors hdr.numSectors).2⟩ := by
  simp only [FileHeader.addLength]
  rw [if_neg hne, if_pos hle]

/-! ### Claim C6: the offset translator -/

/-- Claim C6: for every header and byte offset below the logical size,
`ByteToSector` returns `slots[offset / SectorBytes]` in direct mode, and in
indexed mode reads the index node in `slots[whichNode]` and returns its
entry `whichSector - whichNode * NumSecond`, with
`whichSector = offset / SectorBytes` and `whichNode = whichSector / NumSecond`. -/
theorem spec_C6 : ∀ (cfg : Cfg) (hdr : FileHeader) (disk : Disk) (offset : Nat),
    offset < hdr.numBytes →
    (hdr.useIndex = false →
      hdr.ByteToSector cfg disk offset = hdr.dataSectors (offset / cfg.sectorSize)) ∧
    (hdr.useIndex = true →
      hdr.ByteToSector cfg disk offset =
        disk (hdr.dataSectors (offset / cfg.sectorSize / cfg.numSecond))
          (offset / cfg.sectorSize - offset / cfg.sectorSize / cfg.numSecond *
            cfg.numSecond)) := by
  intro cfg hdr disk offset _
  constructor
  · intro hu
    simp [FileHeader.ByteToSector, hu]
  · intro hu
    simp [FileHeader.ByteToSector, FileHeader.ByteToSectorWithIndex, hu]

/-- Witness for C6 at a concrete direct-mode header and offset. -/
theorem spec_C6_w :
    (0 : Nat) < 1 ∧
    (((⟨1, 1, false, fun _ => 0⟩ : FileHeader).useIndex = false →
      (⟨1, 1, false, fun _ => 0⟩ : FileHeader).ByteToSector ⟨1, 1, 1⟩ (fun _ _ => 0) 0 =
        (⟨1, 1, false, fun _ => 0⟩ : FileHeader).dataSectors (0 / (⟨1, 1, 1⟩ : Cfg).sectorSize)) ∧
    ((⟨1, 1, false, fun _ => 0⟩ : FileHeader).useIndex = true →
      (⟨1, 1, false, fun _ => 0⟩ : FileHeader).ByteToSector ⟨1, 1, 1⟩ (fun _ _ => 0) 0 =
        (fun _ _ => (0 : Int)) ((⟨1, 1, false, fun _ => 0⟩ : FileHeader).dataSectors
            (0 / (⟨1, 1, 1⟩ : Cfg).sectorSize / (⟨1, 1, 1⟩ : Cfg).numSecond))
          (0 / (⟨1, 1, 1⟩ : Cfg).sectorSize - 0 / (⟨1, 1, 1⟩ : Cfg).sectorSize /
            (⟨1, 1, 1⟩ : Cfg).numSecond * (⟨1, 1, 1⟩ : Cfg).numSecond))) :=
  ⟨by decide, spec_C6 ⟨1, 1, 1⟩ ⟨1, 1, false, fun _ => 0⟩ (fun _ _ => 0) 0 (by decide)⟩

/-! ### Claim C2: growth never reports InsufficientSpace -/

/-- Claim C2 (amended): `addLength` performs no free-space feasibility check
and never reports a failure — every return path yields success (`true`),
even when the bitmap cannot satisfy a draw; an exhausted draw stores the
`find` failure sentinel into the layout instead of aborting. -/
theorem spec_C2 : ∀ (cfg : Cfg) (hdr : FileHeader) (disk : Disk) (bm : BitMap)
    (addBytes : Nat), (hdr.addLength cfg disk bm addBytes).ok = true := by
  intro cfg hdr disk bm addBytes
  simp only [FileHeader.addLength]
  split
  · rfl
  · split
    · rfl
    · rfl

/-- Counterexample to claim C2 as stated: a growth of one sector against a
completely full bitmap (`count_clear() = 0`, so no draw can be satisfied)
still returns success, and the freshly written slot holds the `-1`
exhaustion sentinel rather than a sector. -/
theorem spec_C2_cex :
    (FileHeader.addLength ⟨1, 1, false, fun _ => -1⟩ ⟨1, 2, 2⟩ (fun _ _ => 0)
      ⟨3, fun _ => true⟩ 1).ok = true ∧
    (BitMap.NumClear ⟨3, fun _ => true⟩) = 0 ∧
    (FileHeader.addLength ⟨1, 1, false, fun _ => -1⟩ ⟨1, 2, 2⟩ (fun _ _ => 0)
      ⟨3, fun _ => true⟩ 1).hdr.dataSectors 1 = -1 := by
  refine ⟨?_, ?_, ?_⟩ <;> decide

/-! ### Claim C7: no ConfigurationLimit check -/

/-- Claim C7 fails on the code: a growth whose new layout needs
`node_count = divRoundUp 3 1 = 3 > Capacity = 1` index nodes is not
rejected — `addLength` draws the sectors, returns success, and has written
slots 1 and 2, beyond the `Capacity`-sized slot array (in the C++ source
this is an out-of-bounds write into `dataSectors[NumFirst]` and beyond). -/
theorem spec_C7 :
    1 < divRoundUp (divRoundUp (1 + 2) 1) 1 ∧
    (FileHeader.addLength ⟨1, 1, false, fun _ => -1⟩ ⟨1, 1, 1⟩ (fun _ _ => 0)
      ⟨8, fun _ => false⟩ 2).ok = true ∧
    (FileHeader.addLength ⟨1, 1, false, fun _ => -1⟩ ⟨1, 1, 1⟩ (fun _ _ => 0)
      ⟨8, fun _ => false⟩ 2).hdr.dataSectors 1 = 1 ∧
    (FileHeader.addLength ⟨1, 1, false, fun _ => -1⟩ ⟨1, 1, 1⟩ (fun _ _ => 0)
      ⟨8, fun _ => false⟩ 2).hdr.dataSectors 2 = 3 := by
  refine ⟨?_, ?_, ?_, ?_⟩ <;> decide

/-! ### Claim C9: sector_count is always the derived ceiling -/

/-- Claim C9: after a successful `Allocate` and after a successful
`addLength`, the header's `numSectors` equals
`divRoundUp(numBytes, SectorSize)`.  (`Deallocate` mutates only the free
map — in the model its result type contains no header at all — so the
invariant trivially persists across it.) -/
theorem spec_C9 : ∀ (cfg : Cfg) (hdr : FileHeader) (disk : Disk) (bm : BitMap)
    (fileSize addBytes : Nat),
    ((hdr.Allocate cfg disk bm fileSize).ok = true →
      (hdr.Allocate cfg disk bm fileSize).hdr.numSectors =
        divRoundUp (hdr.Allocate cfg disk bm fileSize).hdr.numBytes cfg.sectorSize) ∧
    ((hdr.addLength cfg disk bm addBytes).ok = true →
      (hdr.addLength cfg disk bm addBytes).hdr.numSectors =
        divRoundUp (hdr.addLength cfg disk bm addBytes).hdr.numBytes cfg.sectorSize) := by
  intro cfg hdr disk bm fileSize addBytes
  constructor
  · intro _
    simp only [FileHeader.Allocate, FileHeader.AllocateWithIndex]
    split
    · split <;> rfl
    · split <;> rfl
  · intro _
    simp only [FileHeader.addLength, FileHeader.migrateStep]
    split
    · rfl
    · split
      · rfl
      · split <;> rfl

/-- Witness for C9 at a concrete allocation and growth, with the success
hypotheses discharged by evaluation. -/
theorem spec_C9_w :
    ((FileHeader.Allocate ⟨0, 0, false, fun _ => 0⟩ ⟨1, 1, 1⟩ (fun _ _ => 0)
        ⟨4, fun _ => false⟩ 1).ok = true ∧
      (FileHeader.Allocate ⟨0, 0, false, fun _ => 0⟩ ⟨1, 1, 1⟩ (fun _ _ => 0)
        ⟨4, fun _ => false⟩ 1).hdr.numSectors =
        divRoundUp (FileHeader.Allocate ⟨0, 0, false, fun _ => 0⟩ ⟨1, 1, 1⟩ (fun _ _ => 0)
          ⟨4, fun _ => false⟩ 1).hdr.numBytes (⟨1, 1, 1⟩ : Cfg).sectorSize) ∧
    ((FileHeader.addLength ⟨0, 0, false, fun _ => 0⟩ ⟨1, 1, 1⟩ (fun _ _ => 0)
        ⟨4, fun _ => false⟩ 1).ok = true ∧
      (FileHeader.addLength ⟨0, 0, false, fun _ => 0⟩ ⟨1, 1, 1⟩ (fun _ _ => 0)
        ⟨4, fun _ => false⟩ 1).hdr.numSectors =
        divRoundUp (FileHeader.addLength ⟨0, 0, false, fun _ => 0⟩ ⟨1, 1, 1⟩ (fun _ _ => 0)
          ⟨4, fun _ => false⟩ 1).hdr.numBytes (⟨1, 1, 1⟩ : Cfg).sectorSize) :=
  ⟨⟨by decide, (spec_C9 ⟨1, 1, 1⟩ ⟨0, 0, false, fun _ => 0⟩ (fun _ _ => 0)
      ⟨4, fun _ => false⟩ 1 1).1 (by decide)⟩,
    ⟨by decide, (spec_C9 ⟨1, 1, 1⟩ ⟨0, 0, false, fun _ => 0⟩ (fun _ _ => 0)
      ⟨4, fun _ => false⟩ 1 1).2 (by decide)⟩⟩

/-! ### Claim C4: double deallocation halts -/

theorem BitMap.Test_false_bits {bm : BitMap} {k : Nat} (hk : k < bm.n)
    (h : bm.Test (k : Int) = false) : bm.bits k = false := by
  unfold BitMap.Test at h
  rw [if_pos ⟨by omega, by omega⟩] at h
  simpa using h

theorem tailCnt_zero_pos (cfg : Cfg) (ns : Nat) (hns : 0 < ns) :
    0 < tailCnt cfg (divRoundUp ns cfg.numSecond) ns 0 := by
  unfold tailCnt
  split
  · next h =>
      rcases Nat.eq_zero_or_pos cfg.numSecond with hz | hp
      · rw [hz, divRoundUp_zero_right, if_pos hns] at h
        omega
      · exact hp
  · next h =>
      have := mul_pred_divRoundUp_lt ns cfg.numSecond hns
      omega

/-- Counterexample to claim C4 as stated: for a header with zero sectors
(`allocate(0)` produces one) `Deallocate` frees nothing, so a second call on
the bitmap returned by the first — the very same application — again returns
normally instead of being detected and halted. -/
theorem spec_C4_cex :
    FileHeader.Deallocate ⟨0, 0, false, fun _ => 0⟩ ⟨1, 1, 1⟩ (fun _ _ => 0)
      ⟨2, fun _ => false⟩ = some ⟨2, fun _ => false⟩ := rfl

/-- Claim C4 (amended: restricted to headers with at least one sector):
whenever `Deallocate` completes (every bit it cleared was set at its turn),
a second `Deallocate` of the same header against the resulting bitmap finds
the first sector it is about to free already clear and halts on the fatal
assertion (`none`) instead of silently succeeding. -/
theorem spec_C4 : ∀ (cfg : Cfg) (hdr : FileHeader) (disk : Disk) (bm bm1 : BitMap),
    0 < hdr.numSectors →
    hdr.Deallocate cfg disk bm = some bm1 →
    hdr.Deallocate cfg disk bm1 = none := by
  intro cfg hdr disk bm bm1 hns hdeal
  cases hu : hdr.useIndex with
  | false =>
      simp only [FileHeader.Deallocate, hu, Bool.false_eq_true, if_false] at hdeal ⊢
      obtain ⟨c, hc⟩ : ∃ c, hdr.numSectors = c + 1 := ⟨hdr.numSectors - 1, by omega⟩
      rw [hc] at hdeal ⊢
      have hcl : bm1.Test (hdr.dataSectors 0) = false :=
        clearLoop_cleared _ _ _ _ _ hdeal 0 (Nat.le_refl 0) (by omega)
      rw [clearLoop, if_neg (by simp [hcl])]
  | true =>
      simp only [FileHeader.Deallocate, FileHeader.DeallocateWithIndex, hu, if_true] at hdeal ⊢
      have hnn : 0 < divRoundUp hdr.numSectors cfg.numSecond :=
        divRoundUp_pos _ _ hns
      have hm0 : 0 < tailCnt cfg (divRoundUp hdr.numSectors cfg.numSecond)
          hdr.numSectors 0 := tailCnt_zero_pos cfg hdr.numSectors hns
      obtain ⟨cn, hcn⟩ : ∃ cn, divRoundUp hdr.numSectors cfg.numSecond = cn + 1 :=
        ⟨divRoundUp hdr.numSectors cfg.numSecond - 1, by omega⟩
      rw [hcn] at hdeal hm0 ⊢
      rcases hA : clearLoop (tailCnt cfg (cn + 1) hdr.numSectors 0) bm
          (disk (hdr.dataSectors 0)) 0 with _ | bmA
      · rw [nodeClearLoop_succ_none hA] at hdeal
        cases hdeal
      · rw [nodeClearLoop_succ_some hA] at hdeal
        by_cases hTA : bmA.Test (hdr.dataSectors 0) = true
        · rw [if_pos hTA] at hdeal
          obtain ⟨cm, hcm⟩ : ∃ cm, tailCnt cfg (cn + 1) hdr.numSectors 0 = cm + 1 :=
            ⟨tailCnt cfg (cn + 1) hdr.numSectors 0 - 1, by omega⟩
          rw [hcm] at hA
          have hTent : bm.Test (disk (hdr.dataSectors 0) 0) = true := clearLoop_some_head hA
          obtain ⟨ke, hke, hken, _⟩ := (bm.Test_true_iff _).mp hTent
          have hclA : bmA.Test (disk (hdr.dataSectors 0) 0) = false :=
            clearLoop_cleared _ _ _ _ _ hA 0 (Nat.le_refl 0) (by omega)
          have hnA : bmA.n = bm.n := clearLoop_n_mono _ _ _ _ _ hA
          have hbA : bmA.bits ke = false := by
            apply BitMap.Test_false_bits (by omega)
            rw [← hke]
            exact hclA
          have hbB : (bmA.Clear (hdr.dataSectors 0)).bits ke = false :=
            BitMap.Clear_bits_false hbA _
          have hb1 : bm1.bits ke = false :=
            nodeClearLoop_bits_false_mono _ _ _ _ _ _ _ _ _ hdeal ke hbB
          have hT1 : bm1.Test (disk (hdr.dataSectors 0) 0) = false := by
            rw [hke]
            exact BitMap.Test_false_of_bits hb1
          apply nodeClearLoop_succ_none
          rw [hcm, clearLoop, if_neg (by simp [hT1])]
        · rw [if_neg hTA] at hdeal
          cases hdeal

/-- Witness for C4: a one-sector direct header whose sector is allocated;
the first deallocation succeeds, the second halts. -/
theorem spec_C4_w :
    (0 : Nat) < 1 ∧
    ∃ bm1, FileHeader.Deallocate ⟨1, 1, false, fun _ => 0⟩ ⟨1, 1, 1⟩ (fun _ _ => 0)
        ⟨2, fun k => decide (k = 0)⟩ = some bm1 ∧
      FileHeader.Deallocate ⟨1, 1, false, fun _ => 0⟩ ⟨1, 1, 1⟩ (fun _ _ => 0) bm1 = none :=
  ⟨by decide, ⟨_, rfl, spec_C4 ⟨1, 1, 1⟩ ⟨1, 1, false, fun _ => 0⟩ (fun _ _ => 0)
    ⟨2, fun k => decide (k = 0)⟩ _ (by decide) rfl⟩⟩

/-! ### Claim C8: direct growth only writes the new slot range -/

/-- Claim C8: for a consistent direct-mode header, a growth that stays
within `Capacity` writes only `slots[old..new)`: every slot below the old
sector count (and every slot at or above the new count) is unchanged, so
every byte offset below the old logical size still maps to the same
physical sector. -/
theorem spec_C8 : ∀ (cfg : Cfg) (hdr : FileHeader) (disk : Disk) (bm : BitMap)
    (addBytes : Nat),
    0 < cfg.sectorSize →
    hdr.useIndex = false →
    hdr.numSectors = divRoundUp hdr.numBytes cfg.sectorSize →
    divRoundUp (hdr.numBytes + addBytes) cfg.sectorSize ≤ cfg.numFirst →
    (∀ j, j < hdr.numSectors ∨ divRoundUp (hdr.numBytes + addBytes) cfg.sectorSize ≤ j →
      (hdr.addLength cfg disk bm addBytes).hdr.dataSectors j = hdr.dataSectors j) ∧
    (∀ offset, offset < hdr.numBytes →
      (hdr.addLength cfg disk bm addBytes).hdr.ByteToSector cfg
        (hdr.addLength cfg disk bm addBytes).disk offset
        = hdr.ByteToSector cfg disk offset) := by
  intro cfg hdr disk bm addBytes hSS hu hcons hle
  have hmono : hdr.numSectors ≤ divRoundUp (hdr.numBytes + addBytes) cfg.sectorSize := by
    rw [hcons]
    exact divRoundUp_mono _ _ _ (by omega)
  by_cases hsame : divRoundUp (hdr.numBytes + addBytes) cfg.sectorSize = hdr.numSectors
  · rw [addLength_same cfg hdr disk bm addBytes hsame]
    refine ⟨fun j _ => rfl, fun offset _ => ?_⟩
    simp [FileHeader.ByteToSector, hu]
  · rw [addLength_direct cfg hdr disk bm addBytes hsame hle]
    constructor
    · intro j hj
      exact allocLoop_frame _ _ _ _ j (by omega)
    · intro offset hoff
      have hdiv : offset / cfg.sectorSize < hdr.numSectors := by
        rw [hcons]
        exact div_lt_divRoundUp _ _ _ hSS hoff
      simp only [FileHeader.ByteToSector, hu, Bool.false_eq_true, if_false]
      exact allocLoop_frame _ _ _ _ _ (by omega)

/-- Witness for C8 at a concrete two-sector direct growth. -/
theorem spec_C8_w :
    (0 : Nat) < 2 ∧
    (⟨2, 1, false, fun _ => 5⟩ : FileHeader).useIndex = false ∧
    (⟨2, 1, false, fun _ => 5⟩ : FileHeader).numSectors = divRoundUp 2 2 ∧
    divRoundUp (2 + 2) 2 ≤ 2 ∧
    ((∀ j, j < (⟨2, 1, false, fun _ => 5⟩ : FileHeader).numSectors ∨
        divRoundUp ((⟨2, 1, false, fun _ => 5⟩ : FileHeader).numBytes + 2)
          (⟨2, 2, 2⟩ : Cfg).sectorSize ≤ j →
      (FileHeader.addLength ⟨2, 1, false, fun _ => 5⟩ ⟨2, 2, 2⟩ (fun _ _ => 0)
        ⟨4, fun _ => false⟩ 2).hdr.dataSectors j =
        (⟨2, 1, false, fun _ => 5⟩ : FileHeader).dataSectors j) ∧
    (∀ offset, offset < (⟨2, 1, false, fun _ => 5⟩ : FileHeader).numBytes →
      (FileHeader.addLength ⟨2, 1, false, fun _ => 5⟩ ⟨2, 2, 2⟩ (fun _ _ => 0)
        ⟨4, fun _ => false⟩ 2).hdr.ByteToSector ⟨2, 2, 2⟩
        (FileHeader.addLength ⟨2, 1, false, fun _ => 5⟩ ⟨2, 2, 2⟩ (fun _ _ => 0)
          ⟨4, fun _ => false⟩ 2).disk offset
        = (⟨2, 1, false, fun _ => 5⟩ : FileHeader).ByteToSector ⟨2, 2, 2⟩
          (fun _ _ => 0) offset)) :=
  ⟨by decide, rfl, by decide, by decide,
    spec_C8 ⟨2, 2, 2⟩ ⟨2, 1, false, fun _ => 5⟩ (fun _ _ => 0) ⟨4, fun _ => false⟩ 2
      (by decide) rfl (by decide) (by decide)⟩

/-! ### Claim C10: the mode flag always matches the sector count -/

/-- Claim C10: a successful `Allocate` leaves `useIndex` true exactly when
`numSectors > NumFirst`, and `addLength` preserves that invariant for any
consistent header — which is what makes its unguarded direct-growth branch
(which never tests `useIndex`) sound. -/
theorem spec_C10 : ∀ (cfg : Cfg) (hdr : FileHeader) (disk : Disk) (bm : BitMap)
    (fileSize addBytes : Nat),
    0 < cfg.sectorSize →
    ((hdr.Allocate cfg disk bm fileSize).ok = true →
      ((hdr.Allocate cfg disk bm fileSize).hdr.useIndex = true ↔
        cfg.numFirst < (hdr.Allocate cfg disk bm fileSize).hdr.numSectors)) ∧
    (hdr.numSectors = divRoundUp hdr.numBytes cfg.sectorSize →
      (hdr.useIndex = true ↔ cfg.numFirst < hdr.numSectors) →
      ((hdr.addLength cfg disk bm addBytes).hdr.useIndex = true ↔
        cfg.numFirst < (hdr.addLength cfg disk bm addBytes).hdr.numSectors)) := by
  intro cfg hdr disk bm fileSize addBytes hSS
  constructor
  · intro _
    by_cases hgt : cfg.numFirst < divRoundUp fileSize cfg.sectorSize
    · by_cases hsp : bm.NumClear < divRoundUp fileSize cfg.sectorSize +
        divRoundUp (divRoundUp fileSize cfg.sectorSize) cfg.numSecond
      · rw [Allocate_indexed_fail cfg hdr disk bm fileSize hgt hsp]
        simpa using hgt
      · rw [Allocate_indexed_ok cfg hdr disk bm fileSize hgt hsp]
        simpa using hgt
    · by_cases hsp : bm.NumClear < divRoundUp fileSize cfg.sectorSize
      · rw [Allocate_direct_fail cfg hdr disk bm fileSize (by omega) hsp]
        simpa using hgt
      · rw [Allocate_direct_ok cfg hdr disk bm fileSize (by omega) hsp]
        simpa using hgt
  · intro hcons hinv
    have hmono : hdr.numSectors ≤ divRoundUp (hdr.numBytes + addBytes) cfg.sectorSize := by
      rw [hcons]
      exact divRoundUp_mono _ _ _ (by omega)
    by_cases hsame : divRoundUp (hdr.numBytes + addBytes) cfg.sectorSize = hdr.numSectors
    · rw [addLength_same cfg hdr disk bm addBytes hsame]
      simpa [hsame] using hinv
    · by_cases hle : divRoundUp (hdr.numBytes + addBytes) cfg.sectorSize ≤ cfg.numFirst
      · rw [addLength_direct cfg hdr disk bm addBytes hsame hle]
        have hufalse : hdr.useIndex = false := by
          cases hu : hdr.useIndex
          · rfl
          · have := hinv.mp hu
            omega
        simp only [hufalse]
        constructor
        · intro h
          cases h
        · intro h
          omega
      · simp only [FileHeader.addLength]
        rw [if_neg hsame, if_neg hle]
        cases hu : hdr.useIndex
        · rw [if_pos ⟨by omega, rfl⟩]
          simp only [FileHeader.migrateStep]
          simpa using by omega
        · rw [if_neg (by simp [hu])]
          simp only [hu]
          simpa using by omega

/-- Witness for C10 at a concrete allocation and a concrete growth, with
the success and consistency hypotheses discharged by evaluation. -/
theorem spec_C10_w :
    (0 : Nat) < 1 ∧
    ((FileHeader.Allocate ⟨0, 0, false, fun _ => 0⟩ ⟨1, 1, 2⟩ (fun _ _ => 0)
        ⟨4, fun _ => false⟩ 2).ok = true ∧
      ((FileHeader.Allocate ⟨0, 0, false, fun _ => 0⟩ ⟨1, 1, 2⟩ (fun _ _ => 0)
          ⟨4, fun _ => false⟩ 2).hdr.useIndex = true ↔
        (⟨1, 1, 2⟩ : Cfg).numFirst < (FileHeader.Allocate ⟨0, 0, false, fun _ => 0⟩ ⟨1, 1, 2⟩
          (fun _ _ => 0) ⟨4, fun _ => false⟩ 2).hdr.numSectors)) ∧
    ((⟨0, 0, false, fun _ => 0⟩ : FileHeader).numSectors =
        divRoundUp (⟨0, 0, false, fun _ => 0⟩ : FileHeader).numBytes
          (⟨1, 1, 2⟩ : Cfg).sectorSize ∧
      ((FileHeader.addLength ⟨0, 0, false, fun _ => 0⟩ ⟨1, 1, 2⟩ (fun _ _ => 0)
          ⟨4, fun _ => false⟩ 1).hdr.useIndex = true ↔
        (⟨1, 1, 2⟩ : Cfg).numFirst < (FileHeader.addLength ⟨0, 0, false, fun _ => 0⟩ ⟨1, 1, 2⟩
          (fun _ _ => 0) ⟨4, fun _ => false⟩ 1).hdr.numSectors)) := by
  refine ⟨by decide, ⟨by decide, ?_⟩, ⟨by decide, ?_⟩⟩
  · exact (spec_C10 ⟨1, 1, 2⟩ ⟨0, 0, false, fun _ => 0⟩ (fun _ _ => 0) ⟨4, fun _ => false⟩
      2 1 (by decide)).1 (by decide)
  · exact (spec_C10 ⟨1, 1, 2⟩ ⟨0, 0, false, fun _ => 0⟩ (fun _ _ => 0) ⟨4, fun _ => false⟩
      2 1 (by decide)).2 (by decide) (by decide)

/-! ### Claim C3: direct-to-indexed mode migration -/

theorem copyN_lt (dst src : Nat → Int) : ∀ (c j : Nat), j < c → copyN dst src c j = src j := by
  intro c
  induction c with
  | zero => intro j h; omega
  | succ c ih =>
      intro j h
      rw [copyN]
      rcases eq_or_ne j c with rfl | hne
      · exact Function.update_same _ _ _
      · rw [Function.update_noteq hne]
        exact ih j (by omega)

/-- Claim C3: growing a direct-mode header (here with at least one sector,
`old_sector_count ≤ NumSecond` as the claim requires, and a free sector for
the node draw) past `Capacity` performs mode migration: one sector `k` is
drawn for a new index node, the old direct sectors are copied into that
node's entries `[0..old)` where they still sit on disk after the call,
slot 0 points at `k`, `k` is marked allocated, and the mode flag is true. -/
theorem spec_C3 : ∀ (cfg : Cfg) (hdr : FileHeader) (disk : Disk) (bm : BitMap)
    (addBytes : Nat),
    hdr.useIndex = false →
    1 ≤ hdr.numSectors →
    hdr.numSectors ≤ cfg.numFirst →
    hdr.numSectors ≤ cfg.numSecond →
    cfg.numFirst < divRoundUp (hdr.numBytes + addBytes) cfg.sectorSize →
    0 < bm.NumClear →
    ∃ k : Nat, k < bm.n ∧ bm.bits k = false ∧
      (hdr.addLength cfg disk bm addBytes).hdr.useIndex = true ∧
      (hdr.addLength cfg disk bm addBytes).hdr.dataSectors 0 = (k : Int) ∧
      (hdr.addLength cfg disk bm addBytes).bm.Test (k : Int) = true ∧
      (∀ j, j < hdr.numSectors →
        (hdr.addLength cfg disk bm addBytes).disk (k : Int) j = hdr.dataSectors j) := by
  intro cfg hdr disk bm addBytes hu h1 hNF hNS hgt hsp
  obtain ⟨k, hk, hbk, hfind⟩ := bm.find_pos hsp
  have hone : divRoundUp hdr.numSectors cfg.numSecond = 1 :=
    divRoundUp_eq_one _ _ h1 hNS
  have hTmark : (bm.mark k).Test (k : Int) = true :=
    (bm.mark k).Test_of_bits hk (bm.mark_bits_self k)
  refine ⟨k, hk, hbk, ?_⟩
  simp only [FileHeader.addLength, FileHeader.migrateStep, hfind]
  rw [if_neg (show ¬ divRoundUp (hdr.numBytes + addBytes) cfg.sectorSize
    = hdr.numSectors by omega)]
  rw [if_neg (show ¬ divRoundUp (hdr.numBytes + addBytes) cfg.sectorSize
    ≤ cfg.numFirst by omega)]
  rw [if_pos ⟨hgt, hu⟩]
  by_cases hmod : hdr.numSectors % cfg.numSecond ≠ 0
  · rw [if_pos hmod]
    simp only [hone, Nat.sub_self, Nat.zero_mul, Nat.sub_zero, Function.update_same,
      writeSector]
    have hidx : Function.update hdr.dataSectors 0 (k : Int)
        (divRoundUp hdr.numSectors cfg.numSecond - 1) = (k : Int) := by
      rw [hone]
      exact Function.update_same _ _ _
    rw [hidx, Function.update_same]
    refine ⟨trivial, ?_, ?_, ?_⟩
    · rw [nodeAllocLoop_slots_frame _ _ _ _ _ _ _ _ 0 (by omega)]
      exact Function.update_same _ _ _
    · refine BitMap.Test_mono (nodeAllocLoop_le _ _ _ _ _ _ _ _) ?_
      exact BitMap.Test_mono (allocLoop_le _ _ _ _) hTmark
    · intro j hj
      rw [nodeAllocLoop_disk_frame _ _ _ _ _ _ _ _ _
        (BitMap.Test_mono (allocLoop_le _ _ _ _) hTmark)]
      rw [Function.update_same]
      rw [allocLoop_frame _ _ _ _ j (by omega)]
      exact copyN_lt _ _ _ j hj
  · rw [if_neg hmod]
    simp only [hone, Nat.sub_self, Nat.zero_mul, Nat.sub_zero, Function.update_same,
      writeSector]
    refine ⟨trivial, ?_, ?_, ?_⟩
    · rw [nodeAllocLoop_slots_frame _ _ _ _ _ _ _ _ 0 (by omega)]
      exact Function.update_same _ _ _
    · exact BitMap.Test_mono (nodeAllocLoop_le _ _ _ _ _ _ _ _) hTmark
    · intro j hj
      rw [nodeAllocLoop_disk_frame _ _ _ _ _ _ _ _ _ hTmark]
      rw [Function.update_same]
      exact copyN_lt _ _ _ j hj

/-- Witness for C3: a two-sector direct file (sectors 5 and 6) grown past a
capacity of 2, with migration into one fresh index node. -/
theorem spec_C3_w :
    (⟨2, 2, false, fun j => if j = 0 then 5 else if j = 1 then 6 else -1⟩ :
      FileHeader).useIndex = false ∧
    (1 : Nat) ≤ 2 ∧ (2 : Nat) ≤ 2 ∧ (2 : Nat) ≤ 3 ∧
    (⟨1, 2, 3⟩ : Cfg).numFirst < divRoundUp (2 + 2) 1 ∧
    (0 : Nat) < (BitMap.NumClear ⟨8, fun _ => false⟩) ∧
    ∃ k : Nat, k < (8 : Nat) ∧ (⟨8, fun _ => false⟩ : BitMap).bits k = false ∧
      (FileHeader.addLength ⟨2, 2, false, fun j => if j = 0 then 5 else if j = 1 then 6 else -1⟩
        ⟨1, 2, 3⟩ (fun _ _ => 9) ⟨8, fun _ => false⟩ 2).hdr.useIndex = true ∧
      (FileHeader.addLength ⟨2, 2, false, fun j => if j = 0 then 5 else if j = 1 then 6 else -1⟩
        ⟨1, 2, 3⟩ (fun _ _ => 9) ⟨8, fun _ => false⟩ 2).hdr.dataSectors 0 = (k : Int) ∧
      (FileHeader.addLength ⟨2, 2, false, fun j => if j = 0 then 5 else if j = 1 then 6 else -1⟩
        ⟨1, 2, 3⟩ (fun _ _ => 9) ⟨8, fun _ => false⟩ 2).bm.Test (k : Int) = true ∧
      (∀ j, j < (⟨2, 2, false, fun j => if j = 0 then 5 else if j = 1 then 6 else -1⟩ :
          FileHeader).numSectors →
        (FileHeader.addLength ⟨2, 2, false, fun j => if j = 0 then 5 else if j = 1 then 6 else -1⟩
          ⟨1, 2, 3⟩ (fun _ _ => 9) ⟨8, fun _ => false⟩ 2).disk (k : Int) j =
          (⟨2, 2, false, fun j => if j = 0 then 5 else if j = 1 then 6 else -1⟩ :
            FileHeader).dataSectors j) :=
  ⟨rfl, by decide, by decide, by decide, by decide, by decide,
    spec_C3 ⟨1, 2, 3⟩ ⟨2, 2, false, fun j => if j = 0 then 5 else if j = 1 then 6 else -1⟩
      (fun _ _ => 9) ⟨8, fun _ => false⟩ 2 rfl (by decide) (by decide) (by decide)
      (by decide) (by decide)⟩

/-! ### Claim C1: the allocation round trip -/

theorem ByteToSector_direct (hdr : FileHeader) (cfg : Cfg) (disk : Disk) (offset : Nat)
    (h : hdr.useIndex = false) :
    hdr.ByteToSector cfg disk offset = hdr.dataSectors (offset / cfg.sectorSize) := by
  simp [FileHeader.ByteToSector, h]

theorem ByteToSector_indexed (hdr : FileHeader) (cfg : Cfg) (disk : Disk) (offset : Nat)
    (h : hdr.useIndex = true) :
    hdr.ByteToSector cfg disk offset =
      disk (hdr.dataSectors (offset / cfg.sectorSize / cfg.numSecond))
        (offset / cfg.sectorSize - offset / cfg.sectorSize / cfg.numSecond *
          cfg.numSecond) := by
  simp [FileHeader.ByteToSector, FileHeader.ByteToSectorWithIndex, h]

theorem Deallocate_direct (hdr : FileHeader) (cfg : Cfg) (disk : Disk) (bm : BitMap)
    (h : hdr.useIndex = false) :
    hdr.Deallocate cfg disk bm = clearLoop hdr.numSectors bm hdr.dataSectors 0 := by
  simp [FileHeader.Deallocate, h]

theorem Deallocate_indexed (hdr : FileHeader) (cfg : Cfg) (disk : Disk) (bm : BitMap)
    (h : hdr.useIndex = true) :
    hdr.Deallocate cfg disk bm =
      nodeClearLoop cfg (divRoundUp hdr.numSectors cfg.numSecond) hdr.numSectors disk
        hdr.dataSectors (divRoundUp hdr.numSectors cfg.numSecond) 0 bm := by
  simp [FileHeader.Deallocate, FileHeader.DeallocateWithIndex, h]

/-- Offsets inside the file hit a valid node position and a valid entry of
that node. -/
theorem offset_node_bounds (cfg : Cfg) (ns o : Nat) (hNS : 0 < cfg.numSecond)
    (hws : o < ns) :
    o / cfg.numSecond < divRoundUp ns cfg.numSecond ∧
    o - o / cfg.numSecond * cfg.numSecond <
      tailCnt cfg (divRoundUp ns cfg.numSecond) ns (o / cfg.numSecond) := by
  have hnn : o / cfg.numSecond < divRoundUp ns cfg.numSecond :=
    div_lt_divRoundUp o ns cfg.numSecond hNS hws
  refine ⟨hnn, ?_⟩
  have hdm := Nat.div_add_mod o cfg.numSecond
  have hmlt : o % cfg.numSecond < cfg.numSecond := Nat.mod_lt _ hNS
  have hcm : o / cfg.numSecond * cfg.numSecond = cfg.numSecond * (o / cfg.numSecond) := by
    ring
  unfold tailCnt
  split
  · omega
  · next h2 =>
      have hwn : o / cfg.numSecond = divRoundUp ns cfg.numSecond - 1 := by omega
      have hme : cfg.numSecond * (o / cfg.numSecond) =
          cfg.numSecond * (divRoundUp ns cfg.numSecond - 1) := by rw [hwn]
      omega

/-- Each in-range offset determines its node/entry pair. -/
theorem offset_pair_inj (cfg : Cfg) (o1 o2 : Nat)
    (he : o1 / cfg.numSecond = o2 / cfg.numSecond ∧
      o1 - o1 / cfg.numSecond * cfg.numSecond = o2 - o2 / cfg.numSecond * cfg.numSecond) :
    o1 = o2 := by
  have h1 : o1 / cfg.numSecond * cfg.numSecond ≤ o1 := Nat.div_mul_le_self _ _
  have h2 : o2 / cfg.numSecond * cfg.numSecond ≤ o2 := Nat.div_mul_le_self _ _
  have hm : o1 / cfg.numSecond * cfg.numSecond = o2 / cfg.numSecond * cfg.numSecond := by
    rw [he.1]
  omega

/-- Claim C1: for every requested size in the representable range,
`Allocate` succeeds exactly when the bitmap has enough clear bits — the
sector count in direct mode, the sector count plus the index-node count in
indexed mode — and on success translating every in-range offset yields a
sector that is marked allocated, with offsets in different file sectors
mapped to pairwise-distinct physical sectors. -/
theorem spec_C1 : ∀ (cfg : Cfg) (hdr : FileHeader) (disk : Disk) (bm : BitMap) (size : Nat),
    0 < cfg.sectorSize → 0 < cfg.numSecond →
    1 ≤ size → size ≤ cfg.numFirst * cfg.numSecond * cfg.sectorSize →
    ((hdr.Allocate cfg disk bm size).ok = true ↔
      (if divRoundUp size cfg.sectorSize ≤ cfg.numFirst then divRoundUp size cfg.sectorSize
        else divRoundUp size cfg.sectorSize +
          divRoundUp (divRoundUp size cfg.sectorSize) cfg.numSecond) ≤ bm.NumClear) ∧
    ((hdr.Allocate cfg disk bm size).ok = true →
      (∀ o, o < size →
        (hdr.Allocate cfg disk bm size).bm.Test
          ((hdr.Allocate cfg disk bm size).hdr.ByteToSector cfg
            (hdr.Allocate cfg disk bm size).disk o) = true) ∧
      (∀ o1 o2, o1 < size → o2 < size → o1 / cfg.sectorSize ≠ o2 / cfg.sectorSize →
        (hdr.Allocate cfg disk bm size).hdr.ByteToSector cfg
          (hdr.Allocate cfg disk bm size).disk o1 ≠
        (hdr.Allocate cfg disk bm size).hdr.ByteToSector cfg
          (hdr.Allocate cfg disk bm size).disk o2)) := by
  intro cfg hdr disk bm size hSS hNS hsz hmax
  by_cases hle : divRoundUp size cfg.sectorSize ≤ cfg.numFirst
  · rw [if_pos hle]
    by_cases hsp : bm.NumClear < divRoundUp size cfg.sectorSize
    · rw [Allocate_direct_fail cfg hdr disk bm size hle hsp]
      refine ⟨⟨fun h => (nomatch h), fun h => absurd h (by omega)⟩, fun h => (nomatch h)⟩
    · rw [Allocate_direct_ok cfg hdr disk bm size hle hsp]
      obtain ⟨haN, haJ, haInj⟩ :=
        allocLoop_spec (divRoundUp size cfg.sectorSize) bm hdr.dataSectors 0 (by omega)
      refine ⟨⟨fun _ => by omega, fun _ => rfl⟩, fun _ => ⟨?_, ?_⟩⟩
      · intro o ho
        rw [ByteToSector_direct _ _ _ _ rfl]
        exact (haJ (o / cfg.sectorSize) (Nat.zero_le _)
          (by simpa using div_lt_divRoundUp o size cfg.sectorSize hSS ho)).2
      · intro o1 o2 h1 h2 hne
        rw [ByteToSector_direct _ _ _ _ rfl, ByteToSector_direct _ _ _ _ rfl]
        exact haInj (o1 / cfg.sectorSize) (o2 / cfg.sectorSize) (Nat.zero_le _)
          (by simpa using div_lt_divRoundUp o1 size cfg.sectorSize hSS h1) (Nat.zero_le _)
          (by simpa using div_lt_divRoundUp o2 size cfg.sectorSize hSS h2) hne
  · rw [if_neg hle]
    have hns1 : 0 < divRoundUp size cfg.sectorSize := by omega
    have hcnt : divRoundUp size cfg.sectorSize ≤
        divRoundUp (divRoundUp size cfg.sectorSize) cfg.numSecond * cfg.numSecond := by
      rw [Nat.mul_comm]
      exact le_mul_divRoundUp _ _ hNS
    have hlow : cfg.numSecond *
        (divRoundUp (divRoundUp size cfg.sectorSize) cfg.numSecond - 1) <
        divRoundUp size cfg.sectorSize :=
      mul_pred_divRoundUp_lt _ _ hns1
    by_cases hsp : bm.NumClear < divRoundUp size cfg.sectorSize +
        divRoundUp (divRoundUp size cfg.sectorSize) cfg.numSecond
    · rw [Allocate_indexed_fail cfg hdr disk bm size (by omega) hsp]
      refine ⟨⟨fun h => (nomatch h), fun h => absurd h (by omega)⟩, fun h => (nomatch h)⟩
    · rw [Allocate_indexed_ok cfg hdr disk bm size (by omega) hsp]
      have hz : cfg.numSecond * 0 = 0 := Nat.mul_zero _
      obtain ⟨hBN, hSJ, hEJ, hSinj, hEinj, hX, hD⟩ :=
        nodeAllocLoop_spec cfg (divRoundUp (divRoundUp size cfg.sectorSize) cfg.numSecond)
          (divRoundUp size cfg.sectorSize) hcnt hlow
          (divRoundUp (divRoundUp size cfg.sectorSize) cfg.numSecond) 0 bm
          hdr.dataSectors disk _ _ _ (by omega) (by omega) rfl
      refine ⟨⟨fun _ => by omega, fun _ => rfl⟩, fun _ => ⟨?_, ?_⟩⟩
      · intro o ho
        rw [ByteToSector_indexed _ _ _ _ rfl]
        obtain ⟨hwn, ht⟩ := offset_node_bounds cfg (divRoundUp size cfg.sectorSize)
          (o / cfg.sectorSize) hNS
          (by simpa using div_lt_divRoundUp o size cfg.sectorSize hSS ho)
        exact (hEJ (o / cfg.sectorSize / cfg.numSecond)
          (o / cfg.sectorSize - o / cfg.sectorSize / cfg.numSecond * cfg.numSecond)
          (Nat.zero_le _) hwn ht).2
      · intro o1 o2 h1 h2 hne
        rw [ByteToSector_indexed _ _ _ _ rfl, ByteToSector_indexed _ _ _ _ rfl]
        obtain ⟨hwn1, ht1⟩ := offset_node_bounds cfg (divRoundUp size cfg.sectorSize)
          (o1 / cfg.sectorSize) hNS
          (by simpa using div_lt_divRoundUp o1 size cfg.sectorSize hSS h1)
        obtain ⟨hwn2, ht2⟩ := offset_node_bounds cfg (divRoundUp size cfg.sectorSize)
          (o2 / cfg.sectorSize) hNS
          (by simpa using div_lt_divRoundUp o2 size cfg.sectorSize hSS h2)
        exact hEinj (o1 / cfg.sectorSize / cfg.numSecond)
          (o1 / cfg.sectorSize - o1 / cfg.sectorSize / cfg.numSecond * cfg.numSecond)
          (o2 / cfg.sectorSize / cfg.numSecond)
          (o2 / cfg.sectorSize - o2 / cfg.sectorSize / cfg.numSecond * cfg.numSecond)
          (Nat.zero_le _) hwn1 (Nat.zero_le _) hwn2 ht1 ht2
          (fun hp => hne (offset_pair_inj cfg _ _ hp))

/-- Witness for C1: allocating 5 bytes with 2-byte sectors (3 sectors,
indexed mode with 2 index nodes) out of 8 free sectors. -/
theorem spec_C1_w :
    ((0 : Nat) < 2 ∧ (0 : Nat) < 2 ∧ (1 : Nat) ≤ 5 ∧ (5 : Nat) ≤ 2 * 2 * 2) ∧
    (((FileHeader.Allocate ⟨0, 0, false, fun _ => 0⟩ ⟨2, 2, 2⟩ (fun _ _ => 0)
        ⟨8, fun _ => false⟩ 5).ok = true ↔
      (if divRoundUp 5 (⟨2, 2, 2⟩ : Cfg).sectorSize ≤ (⟨2, 2, 2⟩ : Cfg).numFirst then
          divRoundUp 5 (⟨2, 2, 2⟩ : Cfg).sectorSize
        else divRoundUp 5 (⟨2, 2, 2⟩ : Cfg).sectorSize +
          divRoundUp (divRoundUp 5 (⟨2, 2, 2⟩ : Cfg).sectorSize) (⟨2, 2, 2⟩ : Cfg).numSecond) ≤
        (⟨8, fun _ => false⟩ : BitMap).NumClear) ∧
    ((FileHeader.Allocate ⟨0, 0, false, fun _ => 0⟩ ⟨2, 2, 2⟩ (fun _ _ => 0)
        ⟨8, fun _ => false⟩ 5).ok = true →
      (∀ o, o < 5 →
        (FileHeader.Allocate ⟨0, 0, false, fun _ => 0⟩ ⟨2, 2, 2⟩ (fun _ _ => 0)
          ⟨8, fun _ => false⟩ 5).bm.Test
          ((FileHeader.Allocate ⟨0, 0, false, fun _ => 0⟩ ⟨2, 2, 2⟩ (fun _ _ => 0)
            ⟨8, fun _ => false⟩ 5).hdr.ByteToSector ⟨2, 2, 2⟩
            (FileHeader.Allocate ⟨0, 0, false, fun _ => 0⟩ ⟨2, 2, 2⟩ (fun _ _ => 0)
              ⟨8, fun _ => false⟩ 5).disk o) = true) ∧
      (∀ o1 o2, o1 < 5 → o2 < 5 →
        o1 / (⟨2, 2, 2⟩ : Cfg).sectorSize ≠ o2 / (⟨2, 2, 2⟩ : Cfg).sectorSize →
        (FileHeader.Allocate ⟨0, 0, false, fun _ => 0⟩ ⟨2, 2, 2⟩ (fun _ _ => 0)
          ⟨8, fun _ => false⟩ 5).hdr.ByteToSector ⟨2, 2, 2⟩
          (FileHeader.Allocate ⟨0, 0, false, fun _ => 0⟩ ⟨2, 2, 2⟩ (fun _ _ => 0)
            ⟨8, fun _ => false⟩ 5).disk o1 ≠
        (FileHeader.Allocate ⟨0, 0, false, fun _ => 0⟩ ⟨2, 2, 2⟩ (fun _ _ => 0)
          ⟨8, fun _ => false⟩ 5).hdr.ByteToSector ⟨2, 2, 2⟩
          (FileHeader.Allocate ⟨0, 0, false, fun _ => 0⟩ ⟨2, 2, 2⟩ (fun _ _ => 0)
            ⟨8, fun _ => false⟩ 5).disk o2))) :=
  ⟨by decide, spec_C1 ⟨2, 2, 2⟩ ⟨0, 0, false, fun _ => 0⟩ (fun _ _ => 0)
    ⟨8, fun _ => false⟩ 5 (by decide) (by decide) (by decide) (by decide)⟩

/-! ### Claim C5: conservation under deallocate after allocate -/

/-- Claim C5: whenever `Allocate(bitmap, size)` succeeds, a `Deallocate` of
the resulting header (against the resulting disk and bitmap) completes and
restores `count_clear()` to exactly its pre-allocation value. -/
theorem spec_C5 : ∀ (cfg : Cfg) (hdr : FileHeader) (disk : Disk) (bm : BitMap) (size : Nat),
    0 < cfg.numSecond →
    (hdr.Allocate cfg disk bm size).ok = true →
    ∃ bm2, (hdr.Allocate cfg disk bm size).hdr.Deallocate cfg
        (hdr.Allocate cfg disk bm size).disk (hdr.Allocate cfg disk bm size).bm
        = some bm2 ∧
      bm2.NumClear = bm.NumClear := by
  intro cfg hdr disk bm size hNS hok
  by_cases hle : divRoundUp size cfg.sectorSize ≤ cfg.numFirst
  · by_cases hsp : bm.NumClear < divRoundUp size cfg.sectorSize
    · rw [Allocate_direct_fail cfg hdr disk bm size hle hsp] at hok
      simp at hok
    · rw [Allocate_direct_ok cfg hdr disk bm size hle hsp]
      obtain ⟨haN, haJ, haInj⟩ :=
        allocLoop_spec (divRoundUp size cfg.sectorSize) bm hdr.dataSectors 0 (by omega)
      rw [Deallocate_direct _ _ _ _ rfl]
      obtain ⟨bm2, heq, hN, _⟩ := clearLoop_spec (divRoundUp size cfg.sectorSize)
        (allocLoop (divRoundUp size cfg.sectorSize) bm hdr.dataSectors 0).2
        (allocLoop (divRoundUp size cfg.sectorSize) bm hdr.dataSectors 0).1 0
        (fun j h1 h2 => (haJ j h1 h2).2)
        (fun j1 j2 h1 h2 h3 h4 hne => haInj j1 j2 h1 h2 h3 h4 hne)
      exact ⟨bm2, heq, by omega⟩
  · have hns1 : 0 < divRoundUp size cfg.sectorSize := by omega
    have hcnt : divRoundUp size cfg.sectorSize ≤
        divRoundUp (divRoundUp size cfg.sectorSize) cfg.numSecond * cfg.numSecond := by
      rw [Nat.mul_comm]
      exact le_mul_divRoundUp _ _ hNS
    have hlow : cfg.numSecond *
        (divRoundUp (divRoundUp size cfg.sectorSize) cfg.numSecond - 1) <
        divRoundUp size cfg.sectorSize :=
      mul_pred_divRoundUp_lt _ _ hns1
    by_cases hsp : bm.NumClear < divRoundUp size cfg.sectorSize +
        divRoundUp (divRoundUp size cfg.sectorSize) cfg.numSecond
    · rw [Allocate_indexed_fail cfg hdr disk bm size (by omega) hsp] at hok
      simp at hok
    · rw [Allocate_indexed_ok cfg hdr disk bm size (by omega) hsp]
      have hz : cfg.numSecond * 0 = 0 := Nat.mul_zero _
      obtain ⟨hBN, hSJ, hEJ, hSinj, hEinj, hX, hD⟩ :=
        nodeAllocLoop_spec cfg (divRoundUp (divRoundUp size cfg.sectorSize) cfg.numSecond)
          (divRoundUp size cfg.sectorSize) hcnt hlow
          (divRoundUp (divRoundUp size cfg.sectorSize) cfg.numSecond) 0 bm
          hdr.dataSectors disk _ _ _ (by omega) (by omega) rfl
      rw [Deallocate_indexed _ _ _ _ rfl]
      obtain ⟨bm2, heq, hN1, _⟩ := nodeClearLoop_spec cfg
        (divRoundUp (divRoundUp size cfg.sectorSize) cfg.numSecond)
        (divRoundUp size cfg.sectorSize) hcnt hlow
        (nodeAllocLoop cfg (divRoundUp (divRoundUp size cfg.sectorSize) cfg.numSecond)
          (divRoundUp size cfg.sectorSize)
          (divRoundUp (divRoundUp size cfg.sectorSize) cfg.numSecond)
          0 bm hdr.dataSectors disk).2.1
        (nodeAllocLoop cfg (divRoundUp (divRoundUp size cfg.sectorSize) cfg.numSecond)
          (divRoundUp size cfg.sectorSize)
          (divRoundUp (divRoundUp size cfg.sectorSize) cfg.numSecond)
          0 bm hdr.dataSectors disk).1
        (divRoundUp (divRoundUp size cfg.sectorSize) cfg.numSecond) 0
        (nodeAllocLoop cfg (divRoundUp (divRoundUp size cfg.sectorSize) cfg.numSecond)
          (divRoundUp size cfg.sectorSize)
          (divRoundUp (divRoundUp size cfg.sectorSize) cfg.numSecond)
          0 bm hdr.dataSectors disk).2.2
        (by omega)
        (fun j h1 h2 => (hSJ j h1 h2).2)
        (fun j t h1 h2 ht => (hEJ j t h1 h2 ht).2)
        hSinj hEinj hX
      refine ⟨bm2, heq, ?_⟩
      rw [hz, Nat.sub_zero] at hBN hN1
      rw [hN1, hBN]
      have hle2 : divRoundUp (divRoundUp size cfg.sectorSize) cfg.numSecond +
          divRoundUp size cfg.sectorSize ≤ bm.NumClear := by
        have hy := Nat.le_of_not_lt hsp
        omega
      exact Nat.sub_add_cancel hle2

/-- Witness for C5: the indexed allocation of 5 bytes out of 8 free sectors
is fully returned by the subsequent deallocation. -/
theorem spec_C5_w :
    (0 : Nat) < 2 ∧
    (FileHeader.Allocate ⟨0, 0, false, fun _ => 0⟩ ⟨2, 2, 2⟩ (fun _ _ => 0)
      ⟨8, fun _ => false⟩ 5).ok = true ∧
    ∃ bm2, (FileHeader.Allocate ⟨0, 0, false, fun _ => 0⟩ ⟨2, 2, 2⟩ (fun _ _ => 0)
        ⟨8, fun _ => false⟩ 5).hdr.Deallocate ⟨2, 2, 2⟩
        (FileHeader.Allocate ⟨0, 0, false, fun _ => 0⟩ ⟨2, 2, 2⟩ (fun _ _ => 0)
          ⟨8, fun _ => false⟩ 5).disk
        (FileHeader.Allocate ⟨0, 0, false, fun _ => 0⟩ ⟨2, 2, 2⟩ (fun _ _ => 0)
          ⟨8, fun _ => false⟩ 5).bm = some bm2 ∧
      bm2.NumClear = (⟨8, fun _ => false⟩ : BitMap).NumClear :=
  ⟨by decide, by decide, spec_C5 ⟨2, 2, 2⟩ ⟨0, 0, false, fun _ => 0⟩ (fun _ _ => 0)
    ⟨8, fun _ => false⟩ 5 (by decide) (by decide)⟩

end Nachos
